import Mathlib

/-!
# Verification of the comment-thread reconstruction and caching engine

A shallow embedding, in Lean 4, of the core logic of the VSCode-Gerrit
extension's comment engine:

* `GerritChangeCache` (two-level memo cache keyed by change id and a
  normalized "with values" key) from `src/lib/gerritCache.ts`;
* `DocumentCommentManager` (thread builder and per-document thread
  registry) from the same file;
* `CommentManager.getFileManagersForUri` (registry directory);
* `uniqueComplex` from `src/lib/util.ts`.

TypeScript `Map`s are embedded as functions to `Option`, arrays as `List`s,
string ids as `String`, timestamps as `Nat`, fallible async operations as
values of `Except`/flagged results, and the unbounded recursion of
`_getAllRepliesTo` as a fuel-indexed function (`none` = the recursion does
not finish within the given fuel; it is proved below which inputs need
which fuel).  JS `Array.prototype.sort`'s default comparator (UTF-16
lexicographic string order) is embedded as `strLe`, defined directly on
character lists so that it evaluates by kernel reduction.
-/

/-- Lexicographic order on character lists, by code point: the order JS
uses to compare strings (for ASCII/BMP content). -/
def lexLe : List Char → List Char → Bool
  | [], _ => true
  | _ :: _, [] => false
  | a :: as, b :: bs => if a = b then lexLe as bs else decide (a < b)

/-- JS string comparison `a <= b` (UTF-16 lexicographic), on `String`. -/
def strLe (a b : String) : Bool :=
  lexLe a.data b.data

/-- Insert an element into a list, in front of the first element it is
`le`-below; keeps an already `le`-sorted list sorted. -/
def insertLe (le : α → α → Bool) (a : α) : List α → List α
  | [] => [a]
  | b :: bs => if le a b then a :: b :: bs else b :: insertLe le a bs

/-- Stable insertion sort with a Boolean comparator: the embedding of JS
`Array.prototype.sort` under a total comparator (JS sort is stable and,
for a total order, produces the unique sorted permutation). -/
def sortBy (le : α → α → Bool) : List α → List α
  | [] => []
  | a :: as => insertLe le a (sortBy le as)

/-- Worker of `uniqueComplex`: `acc` is the `items` array built so far. -/
def uniqueComplexGo (key : α → String) (acc : List α) : List α → List α
  | [] => acc
  | item :: rest =>
    if acc.any (fun i => key i = key item) then uniqueComplexGo key acc rest
    else uniqueComplexGo key (acc ++ [item]) rest

/-- `uniqueComplex` from `src/lib/util.ts`: keeps the first item for each
key value, preserving order of first occurrences. -/
def uniqueComplex (arr : List α) (key : α → String) : List α :=
  uniqueComplexGo key [] arr

/-- The two revision sides of a comment (`GerritCommentSide` from
`src/lib/gerritAPI/types.ts`, which is not among the provided sources).
Modelled from the spec: "side: which revision side (base/target) the
comment anchors to"; the enum's values are distinct non-empty string
constants, which is all the embedding relies on. -/
inductive GerritCommentSide where
  | LEFT
  | RIGHT
deriving DecidableEq, Repr

/-- JS truthiness of a `GerritCommentSide` value: every enum value is a
non-empty string constant, hence truthy. -/
def GerritCommentSide.truthy : GerritCommentSide → Bool :=
  fun _ => true

/-- A Gerrit comment range (1-based start/end line and character). -/
structure GerritCommentRange where
  start_line : Nat
  start_character : Nat
  end_line : Nat
  end_character : Nat
deriving DecidableEq, Repr

/-- An editor position (0-based line/character). -/
structure EditorPosition where
  line : Nat
  character : Nat
deriving DecidableEq, Repr

/-- An editor range. -/
structure EditorRange where
  start : EditorPosition
  «end» : EditorPosition
deriving DecidableEq, Repr

/-- The comment record consumed by the engine (`GerritCommentBase`).
`updated` is the comment's last-update timestamp (a totally ordered
instant; embedded as `Nat`).  `inReplyTo = none` embeds an absent (falsy)
`inReplyTo`; `line`/`range` are the optional positional anchor. -/
structure GerritCommentBase where
  id : String
  inReplyTo : Option String
  updated : Nat
  side : Option GerritCommentSide
  line : Option Nat
  range : Option GerritCommentRange
deriving DecidableEq, Repr

/-- Modelled from the spec: `GerritComment.gerritRangeToVSCodeRange`
(`src/lib/gerritAPI/gerritComment.ts` is not among the provided sources).
The spec's data model has a comment anchored at "a range (start/end
line+character)"; Gerrit ranges are 1-based, editor ranges 0-based. -/
def gerritRangeToVSCodeRange (r : GerritCommentRange) : EditorRange :=
  ⟨⟨r.start_line - 1, r.start_character⟩, ⟨r.end_line - 1, r.end_character⟩⟩

/-- `DocumentCommentManager.getCommentRange`: the comment's range if
present, else a zero-width range at its (1-based, truthy — `0` is falsy
in JS) line, else `none` ("no placeable anchor"). -/
def getCommentRange (comment : GerritCommentBase) : Option EditorRange :=
  match comment.range with
  | some r => some (gerritRangeToVSCodeRange r)
  | none =>
    match comment.line with
    | some l => if l = 0 then none else some ⟨⟨l - 1, 0⟩, ⟨l - 1, 0⟩⟩
    | none => none

/-- One round of `_getAllRepliesTo`'s recursion over a list of direct
replies, concatenating the recursive results; `none` propagates fuel
exhaustion of any recursive call. -/
def getAllRepliesToList (f : GerritCommentBase → Option (List GerritCommentBase)) :
    List GerritCommentBase → Option (List GerritCommentBase)
  | [] => some []
  | c :: cs =>
    match f c, getAllRepliesToList f cs with
    | some a, some b => some (a ++ b)
    | _, _ => none

/-- `DocumentCommentManager._getAllRepliesTo`, fuel-indexed: the comment
itself, its direct replies (comments of `allComments` whose `inReplyTo`
equals its id), then recursively all replies of each direct reply, the
whole list deduplicated by id.  The source recurses without bound;
`none` means the recursion does not finish within `fuel` nested calls. -/
def getAllRepliesTo : Nat → GerritCommentBase → List GerritCommentBase →
    Option (List GerritCommentBase)
  | 0, _, _ => none
  | fuel + 1, comment, allComments =>
    match getAllRepliesToList (fun r => getAllRepliesTo fuel r allComments)
        (allComments.filter fun c => c.inReplyTo = some comment.id) with
    | none => none
    | some recs =>
      some (uniqueComplex
        ((comment :: allComments.filter fun c => c.inReplyTo = some comment.id) ++ recs)
        GerritCommentBase.id)

/-- Modelled from the spec: `DateTime.sortByDate` with
`DateSortDirection.INCREASING_TIME` (`src/lib/dateTime.ts` is not among
the provided sources).  The spec: thread contents are "sorted by
`updated` ascending"; embedded as a stable sort on the key. -/
def sortByDateIncreasing (key : α → Nat) (l : List α) : List α :=
  sortBy (fun a b => key a ≤ key b) l

/-- Expand every root into its thread, keeping the threads separate
(`.map` over the filtered roots, with `none` propagating fuel
exhaustion). -/
def buildRootThreads (fuel : Nat) (allComments : List GerritCommentBase) :
    List GerritCommentBase → Option (List (List GerritCommentBase))
  | [] => some []
  | r :: rs =>
    match getAllRepliesTo fuel r allComments, buildRootThreads fuel allComments rs with
    | some t, some ts => some (t :: ts)
    | _, _ => none

/-- `DocumentCommentManager._buildThreadsFromComments`, fuel-indexed:
keep the roots (comments with falsy `inReplyTo`), expand each root with
`_getAllRepliesTo` over the original flat list, sort each resulting
thread by `updated` ascending. -/
def buildThreadsFromCommentsFuel (fuel : Nat) (comments : List GerritCommentBase) :
    Option (List (List GerritCommentBase)) :=
  (buildRootThreads fuel comments (comments.filter fun c => c.inReplyTo = none)).map
    fun ts => ts.map (sortByDateIncreasing GerritCommentBase.updated)

/-- `_buildThreadsFromComments` at the canonical fuel `|comments| + 1`,
which (as proved below) is enough whenever the source's unbounded
recursion terminates at all. -/
def buildThreadsFromComments (comments : List GerritCommentBase) :
    Option (List (List GerritCommentBase)) :=
  buildThreadsFromCommentsFuel (comments.length + 1) comments

/-- JS `Array.prototype.join(sep)`: elements concatenated with `sep`
between consecutive elements (`[] → ""`). -/
def joinSep (sep : String) : List String → String
  | [] => ""
  | [x] => x
  | x :: xs => x ++ sep ++ joinSep sep xs

/-- `GerritChangeCache._withValuesToString`: sort the requested "with"
values with JS default string comparison and join with `"."`
(`withValues.sort().join('.')`).  `GerritAPIWith` values are embedded as
the strings they are. -/
def withValuesToString (withValues : List String) : String :=
  joinSep "." (sortBy strLe withValues)

/-- The three-way result of `GerritChangeCache.get`
(`GerritChange | null | undefined`). -/
inductive CacheGetResult (E : Type) where
  | null
  | undefined
  | found (change : E)
deriving DecidableEq, Repr

/-- The state of a `GerritChangeCache`: change id to the id's sub-map
from normalized with-values key to the cached change.  `GerritChange`
itself is an external entity, so the state is parametrized by the entity
type `E`. -/
def GerritChangeCacheState (E : Type) : Type :=
  String → Option (String → Option E)

/-- A freshly constructed `GerritChangeCache` (both `Map`s empty). -/
def emptyCache (E : Type) : GerritChangeCacheState E :=
  fun _ => none

/-- `GerritChangeCache.set`: create the change id's sub-map if the id has
never been seen, then store the change under the normalized key
(overwriting that key's previous value, as `Map.set` does). -/
def cacheSet (s : GerritChangeCacheState E) (changeId : String)
    (withValues : List String) (change : E) : GerritChangeCacheState E :=
  let sub := (s changeId).getD fun _ => none
  fun id =>
    if id = changeId then
      some fun k => if k = withValuesToString withValues then some change else sub k
    else s id

/-- `GerritChangeCache.get`: `null` if the change id has no sub-map,
`undefined` if the sub-map has nothing under the normalized key, else
the cached change. -/
def cacheGet (s : GerritChangeCacheState E) (changeId : String)
    (withValues : List String) : CacheGetResult E :=
  match s changeId with
  | none => .null
  | some sub =>
    match sub (withValuesToString withValues) with
    | none => .undefined
    | some change => .found change

/-- `GerritChangeCache.has`. -/
def cacheHas (s : GerritChangeCacheState E) (changeId : String)
    (withValues : List String) : Bool :=
  match s changeId with
  | none => false
  | some sub => (sub (withValuesToString withValues)).isSome

/-- A mutation of the cache (the only mutator is `set`). -/
structure CacheSetOp (E : Type) where
  changeId : String
  withValues : List String
  change : E

/-- Run a sequence of `set` operations from a given state. -/
def runCacheOpsFrom (s : GerritChangeCacheState E) :
    List (CacheSetOp E) → GerritChangeCacheState E
  | [] => s
  | op :: ops => runCacheOpsFrom (cacheSet s op.changeId op.withValues op.change) ops

/-- Run a sequence of `set` operations on a fresh cache. -/
def runCacheOps (ops : List (CacheSetOp E)) : GerritChangeCacheState E :=
  runCacheOpsFrom (emptyCache E) ops

/-- The stored entry at a (change id, normalized key) pair: `none` when
the id has no sub-map or the sub-map has nothing under the key. -/
def cacheEntry (s : GerritChangeCacheState E) (changeId : String)
    (key : String) : Option E :=
  match s changeId with
  | none => none
  | some sub => sub key

/-- The file identity of an open document (`FileMeta` from
`src/views/fileProvider.ts`, not among the provided sources).  Modelled
from the spec: a file identity names the change, revision, path and the
side under which the file is open. -/
structure FileMeta where
  filePath : String
  changeId : String
  commit : String
  side : GerritCommentSide
deriving DecidableEq, Repr

/-- Modelled from the spec: `FileProvider.fileMetaToKey` (not among the
provided sources) — a canonical string for a file identity, used as the
key of `CommentManager._commentManagers`. -/
def fileMetaToKey (meta : FileMeta) : String :=
  meta.changeId ++ "/" ++ meta.commit ++ "/" ++ meta.filePath ++ "/" ++
    (match meta.side with | .LEFT => "LEFT" | .RIGHT => "RIGHT")

/-- The filter callback of `loadComments`'s side filter, written in the
source as `(c) => c.side ?? GerritCommentSide.RIGHT === fileMeta.side`.
In TypeScript `===` binds tighter than `??`, so the callback computes
`c.side ?? (GerritCommentSide.RIGHT === fileMeta.side)` and the filter
tests the JS truthiness of that value: a present `side` (a non-empty
enum string) is truthy regardless of which side it names. -/
def sideFilterPred (metaSide : GerritCommentSide) (c : GerritCommentBase) : Bool :=
  match c.side with
  | some s => s.truthy
  | none => GerritCommentSide.RIGHT = metaSide

/-- The mutable state of a `DocumentCommentManager`: `_threadMap` (comment
id to owning live thread) and `_threadLineCount` (anchor line to number
of threads anchored there; the line is `-1` when a thread has no
placeable anchor, hence `Int`).  Live `GerritCommentThread` objects are
external (`src/views/comments/thread.ts` is not among the provided
sources); they are embedded by identity as `Nat` handles allocated from
`nextThreadId`. -/
structure DocumentCommentManagerState where
  threadMap : String → Option Nat
  threadLineCount : Int → Option Nat
  nextThreadId : Nat

/-- A freshly constructed `DocumentCommentManager` (both `Map`s empty). -/
def initialManagerState : DocumentCommentManagerState :=
  { threadMap := fun _ => none, threadLineCount := fun _ => none, nextThreadId := 0 }

/-- `DocumentCommentManager.createCommentThread`: derive the range from
the thread's first comment; without a range return `null` and create
nothing, otherwise materialize a live thread object (a fresh handle; the
construction of the editor-side object and `GerritCommentThread.from`
are external presentation calls, modelled from the spec as succeeding).
The `comments = []` case never occurs in `loadComments` (empty threads
are filtered out first). -/
def createCommentThread (s : DocumentCommentManagerState)
    (comments : List GerritCommentBase) : Option Nat × DocumentCommentManagerState :=
  match comments.head? with
  | none => (none, s)
  | some c0 =>
    match getCommentRange c0 with
    | none => (none, s)
    | some _ => (some s.nextThreadId, { s with nextThreadId := s.nextThreadId + 1 })

/-- The anchor line recorded for a thread whose first comment is `c0`:
`getCommentRange(thread[0])?.start.line ?? -1`. -/
def anchorLineOf (c0 : GerritCommentBase) : Int :=
  ((getCommentRange c0).map fun r => (r.start.line : Int)).getD (-1)

/-- One iteration of the first `for` loop of `loadComments`: bump
`_threadLineCount` at the thread's anchor line (`-1` when the thread has
no placeable anchor).  The `thread = []` case never occurs (empty
threads are filtered out first). -/
def recordThreadLine (st : DocumentCommentManagerState)
    (thread : List GerritCommentBase) : DocumentCommentManagerState :=
  match thread.head? with
  | none => st
  | some c0 =>
    { st with
      threadLineCount := fun l =>
        if l = anchorLineOf c0 then some (((st.threadLineCount (anchorLineOf c0)).getD 0) + 1)
        else st.threadLineCount l }

/-- The first `for` loop of `loadComments`. -/
def recordThreadLines (threads : List (List GerritCommentBase))
    (s : DocumentCommentManagerState) : DocumentCommentManagerState :=
  threads.foldl recordThreadLine s

/-- The body of `thread.forEach(...)`: register the comment ids of a
thread in `_threadMap`, all mapping to the live thread `tid`. -/
def registerThreadComments (tid : Nat) (st : DocumentCommentManagerState)
    (thread : List GerritCommentBase) : DocumentCommentManagerState :=
  thread.foldl
    (fun st2 c =>
      { st2 with
        threadMap := fun k => if k = c.id then some tid else st2.threadMap k })
    st

/-- One iteration of the second `for` loop of `loadComments`: materialize
a live thread and, when one was created, register every comment id of
the thread in `_threadMap`. -/
def registerThread (st : DocumentCommentManagerState)
    (thread : List GerritCommentBase) : DocumentCommentManagerState :=
  match createCommentThread st thread with
  | (none, st') => st'
  | (some tid, st') => registerThreadComments tid st' thread

/-- The second `for` loop of `loadComments`. -/
def registerThreads (threads : List (List GerritCommentBase))
    (s : DocumentCommentManagerState) : DocumentCommentManagerState :=
  threads.foldl registerThread s

/-- Whether a live thread object gets created for a built thread: true
iff its first comment has a placeable anchor. -/
def threadAnchored (thread : List GerritCommentBase) : Bool :=
  match thread.head? with
  | none => false
  | some c0 => (getCommentRange c0).isSome

/-- `DocumentCommentManager.loadComments`.  The two remote fetches
(`GerritComment.getForMeta` / `GerritDraftComment.getForMeta`, grouped
by file path) are external collaborators, passed in as `Except`-valued
results; `tryGetFileMeta` of the manager's document is passed in as
`meta?`.  Returns the post-call state and whether the call completed
(`false` embeds a thrown rejection: a failed fetch, or the unbounded
thread-builder recursion never finishing).  All map mutation happens
after both fetches and the build, exactly as in the source. -/
def loadComments (meta? : Option FileMeta)
    (commentsFetch draftsFetch : Except Unit (String → Option (List GerritCommentBase)))
    (s : DocumentCommentManagerState) : DocumentCommentManagerState × Bool :=
  match meta? with
  | none => (s, true)
  | some fileMeta =>
    match commentsFetch with
    | .error _ => (s, false)
    | .ok commentsByPath =>
      match draftsFetch with
      | .error _ => (s, false)
      | .ok draftsByPath =>
        let comments := (commentsByPath fileMeta.filePath).getD []
        let draftComments := (draftsByPath fileMeta.filePath).getD []
        let allComments := comments ++ draftComments
        let thisSideComments := allComments.filter (sideFilterPred fileMeta.side)
        match buildThreadsFromComments thisSideComments with
        | none => (s, false)
        | some built =>
          let threads := built.filter fun t => t.length ≠ 0
          (registerThreads threads (recordThreadLines threads s), true)

/-- `DocumentCommentManager.getThreadByComment` (`null` embedded as
`none`). -/
def getThreadByComment (s : DocumentCommentManagerState)
    (comment : GerritCommentBase) : Option Nat :=
  s.threadMap comment.id

/-- `DocumentCommentManager.getLineThreadCount`, default `0`. -/
def getLineThreadCount (s : DocumentCommentManagerState) (lineNumber : Int) : Nat :=
  (s.threadLineCount lineNumber).getD 0

/-- The registry directory state of `CommentManager`:
`_commentManagers` (file-meta key to manager) and
`_commentManagersByFilePath` (file path to the managers open for it).
`DocumentCommentManager` objects are embedded by identity as `Nat`
handles allocated from `nextManagerId`. -/
structure CommentManagerDirectory where
  commentManagers : String → Option Nat
  commentManagersByFilePath : String → Option (List Nat)
  nextManagerId : Nat

/-- The directory before any document is opened. -/
def emptyDirectory : CommentManagerDirectory :=
  { commentManagers := fun _ => none
    commentManagersByFilePath := fun _ => none
    nextManagerId := 0 }

/-- `CommentManager.getFileManagersForUri` (`tryGetFileMeta` of the uri is
passed in as `meta?`): return the existing by-file-path list if present;
otherwise construct a fresh manager, store it in `_commentManagers`
under the file-meta key, and return
`_commentManagersByFilePath.get(meta.filePath) ?? []`. -/
def getFileManagersForUri (meta? : Option FileMeta) (d : CommentManagerDirectory) :
    List Nat × CommentManagerDirectory :=
  match meta? with
  | none => ([], d)
  | some meta =>
    match d.commentManagersByFilePath meta.filePath with
    | some managers => (managers, d)
    | none =>
      let m := d.nextManagerId
      let d' : CommentManagerDirectory :=
        { commentManagers := fun k => if k = fileMetaToKey meta then some m else d.commentManagers k
          commentManagersByFilePath := d.commentManagersByFilePath
          nextManagerId := m + 1 }
      ((d'.commentManagersByFilePath meta.filePath).getD [], d')

/-- `Reaches all c p`: the upward `inReplyTo` chain of `c` (inside the
flat list `all`) reaches `p` — equivalently, `c` is collected by the
recursive downward traversal of `_getAllRepliesTo` started at `p`. -/
inductive Reaches (all : List GerritCommentBase) : GerritCommentBase → GerritCommentBase → Prop
  | refl (c : GerritCommentBase) : c ∈ all → Reaches all c c
  | step (c p q : GerritCommentBase) : c ∈ all → c.inReplyTo = some p.id →
      Reaches all p q → Reaches all c q

/-- `ReachesRoot all c r`: the upward chain of `c` ends at the root `r`
(a comment with no `inReplyTo`). -/
def ReachesRoot (all : List GerritCommentBase) (c r : GerritCommentBase) : Prop :=
  Reaches all c r ∧ r.inReplyTo = none

/-- `IsUpChain all l`: `l` is a complete upward reply chain inside `all`:
it starts anywhere, each element's `inReplyTo` names the id of the next,
and the last element is a root. -/
inductive IsUpChain (all : List GerritCommentBase) : List GerritCommentBase → Prop
  | root (c : GerritCommentBase) : c ∈ all → c.inReplyTo = none → IsUpChain all [c]
  | step (c p : GerritCommentBase) (rest : List GerritCommentBase) :
      c ∈ all → c.inReplyTo = some p.id → IsUpChain all (p :: rest) →
      IsUpChain all (c :: p :: rest)

/-- A root comment, for the divergence counterexample input. -/
def cycRoot : GerritCommentBase := ⟨"r", none, 0, none, none, none⟩

/-- A reply to the root, with id `"a"`. -/
def cycA : GerritCommentBase := ⟨"a", some "r", 1, none, none, none⟩

/-- A reply to id `"a"`. -/
def cycB : GerritCommentBase := ⟨"b", some "a", 2, none, none, none⟩

/-- A second comment with the duplicated id `"a"`, replying to `"b"`:
together with `cycB` it closes a reply cycle that the recursive
traversal, started from the root, never escapes. -/
def cycA2 : GerritCommentBase := ⟨"a", some "b", 3, none, none, none⟩

/-- The counterexample input: a root plus a reply cycle reachable from it
through a duplicated comment id. -/
def cycComments : List GerritCommentBase := [cycRoot, cycA, cycB, cycA2]

/-- The thread builder diverges on an input: no fuel bound suffices for
the fuel-indexed embedding, i.e. the source's unbounded recursion never
finishes (a crash, not a result). -/
def buildDiverges (comments : List GerritCommentBase) : Prop :=
  ∀ fuel : Nat, buildThreadsFromCommentsFuel fuel comments = none

/-! ## Sorting: permutation, sortedness, uniqueness -/

theorem insertLe_perm (le : α → α → Bool) (a : α) (l : List α) :
    (insertLe le a l).Perm (a :: l) := by
  induction l with
  | nil => simp [insertLe]
  | cons b bs ih =>
    simp only [insertLe]
    by_cases h : le a b
    · simp [h]
    · simp only [h, if_neg]
      exact (ih.cons b).trans (List.Perm.swap a b bs)

theorem sortBy_perm (le : α → α → Bool) (l : List α) : (sortBy le l).Perm l := by
  induction l with
  | nil => simp [sortBy]
  | cons a as ih =>
    exact ((insertLe_perm le a (sortBy le as)).trans (ih.cons a))

theorem insertLe_sorted (le : α → α → Bool)
    (total : ∀ a b, le a b = true ∨ le b a = true)
    (trans : ∀ a b c, le a b = true → le b c = true → le a c = true)
    (a : α) (l : List α) (h : List.Pairwise (fun x y => le x y = true) l) :
    List.Pairwise (fun x y => le x y = true) (insertLe le a l) := by
  induction l with
  | nil => simp [insertLe]
  | cons b bs ih =>
    rcases List.pairwise_cons.mp h with ⟨hb, hbs⟩
    simp only [insertLe]
    by_cases hab : le a b
    · rw [if_pos hab]
      refine List.Pairwise.cons ?_ (List.Pairwise.cons hb hbs)
      intro x hx
      rcases List.mem_cons.mp hx with rfl | hx
      · exact hab
      · exact trans a b x hab (hb x hx)
    · rw [if_neg hab]
      refine List.Pairwise.cons ?_ (ih hbs)
      intro x hx
      rcases List.mem_cons.mp (((insertLe_perm le a bs).mem_iff).mp hx) with heq | hx
      · rw [heq]
        rcases total a b with h' | h'
        · exact absurd h' hab
        · exact h'
      · exact hb x hx

theorem sortBy_sorted (le : α → α → Bool)
    (total : ∀ a b, le a b = true ∨ le b a = true)
    (trans : ∀ a b c, le a b = true → le b c = true → le a c = true)
    (l : List α) : List.Pairwise (fun x y => le x y = true) (sortBy le l) := by
  induction l with
  | nil => simp [sortBy]
  | cons a as ih => exact insertLe_sorted le total trans a _ ih

theorem sorted_perm_eq (le : α → α → Bool)
    (antisymm : ∀ a b, le a b = true → le b a = true → a = b)
    {l₁ l₂ : List α} (hp : l₁.Perm l₂)
    (h₁ : List.Pairwise (fun x y => le x y = true) l₁)
    (h₂ : List.Pairwise (fun x y => le x y = true) l₂) : l₁ = l₂ := by
  haveI : IsAntisymm α (fun x y => le x y = true) := ⟨antisymm⟩
  exact List.eq_of_perm_of_sorted hp h₁ h₂

/-! ## The JS string order: totality, transitivity, antisymmetry -/

theorem lexLe_total (a b : List Char) : lexLe a b = true ∨ lexLe b a = true := by
  induction a generalizing b with
  | nil => left; simp [lexLe]
  | cons x xs ih =>
    cases b with
    | nil => right; simp [lexLe]
    | cons y ys =>
      by_cases hxy : x = y
      · subst hxy
        simpa [lexLe] using ih ys
      · rcases lt_trichotomy x y with h | h | h
        · left; simp [lexLe, hxy, h]
        · exact absurd h hxy
        · right; simp [lexLe, Ne.symm hxy, h, not_lt_of_gt h]

theorem lexLe_trans (a b c : List Char) (hab : lexLe a b = true)
    (hbc : lexLe b c = true) : lexLe a c = true := by
  induction a generalizing b c with
  | nil => simp [lexLe]
  | cons x xs ih =>
    cases b with
    | nil => simp [lexLe] at hab
    | cons y ys =>
      cases c with
      | nil => simp [lexLe] at hbc
      | cons z zs =>
        by_cases hxy : x = y
        · subst hxy
          by_cases hyz : x = z
          · subst hyz
            simp only [lexLe, if_pos rfl] at hab hbc ⊢
            exact ih ys zs hab hbc
          · simp only [lexLe, if_pos rfl, if_neg hyz] at hbc ⊢
            exact hbc
        · simp only [lexLe, if_neg hxy, decide_eq_true_eq] at hab
          by_cases hyz : y = z
          · subst hyz
            simp [lexLe, hxy, hab]
          · simp only [lexLe, if_neg hyz, decide_eq_true_eq] at hbc
            have hxz : x < z := lt_trans hab hbc
            simp [lexLe, ne_of_lt hxz, hxz]

theorem lexLe_antisymm (a b : List Char) (hab : lexLe a b = true)
    (hba : lexLe b a = true) : a = b := by
  induction a generalizing b with
  | nil =>
    cases b with
    | nil => rfl
    | cons y ys => simp [lexLe] at hba
  | cons x xs ih =>
    cases b with
    | nil => simp [lexLe] at hab
    | cons y ys =>
      by_cases hxy : x = y
      · subst hxy
        simp only [lexLe, if_pos rfl] at hab hba
        exact congrArg _ (ih ys hab hba)
      · simp only [lexLe, if_neg hxy, decide_eq_true_eq] at hab
        simp only [lexLe, if_neg (Ne.symm hxy), decide_eq_true_eq] at hba
        exact absurd (lt_trans hab hba) (lt_irrefl x)

theorem strLe_total (a b : String) : strLe a b = true ∨ strLe b a = true :=
  lexLe_total a.data b.data

theorem strLe_trans (a b c : String) (hab : strLe a b = true)
    (hbc : strLe b c = true) : strLe a c = true :=
  lexLe_trans a.data b.data c.data hab hbc

theorem strLe_antisymm (a b : String) (hab : strLe a b = true)
    (hba : strLe b a = true) : a = b := by
  cases a; cases b
  exact congrArg _ (lexLe_antisymm _ _ hab hba)

/-! ## `uniqueComplex`: membership and key-uniqueness -/

theorem uniqueComplexGo_acc_subset (key : α → String) (acc l : List α) :
    acc ⊆ uniqueComplexGo key acc l := by
  induction l generalizing acc with
  | nil => simp [uniqueComplexGo]
  | cons item rest ih =>
    intro x hx
    simp only [uniqueComplexGo]
    by_cases h : acc.any (fun i => key i = key item)
    · rw [if_pos h]; exact ih acc hx
    · rw [if_neg h]
      exact ih (acc ++ [item]) (List.mem_append_left _ hx)

theorem uniqueComplexGo_subset (key : α → String) (acc l : List α) :
    ∀ x ∈ uniqueComplexGo key acc l, x ∈ acc ∨ x ∈ l := by
  induction l generalizing acc with
  | nil => intro x hx; left; simpa [uniqueComplexGo] using hx
  | cons item rest ih =>
    intro x hx
    simp only [uniqueComplexGo] at hx
    by_cases h : acc.any (fun i => key i = key item)
    · rw [if_pos h] at hx
      rcases ih acc x hx with h' | h'
      · exact Or.inl h'
      · exact Or.inr (List.mem_cons_of_mem _ h')
    · rw [if_neg h] at hx
      rcases ih (acc ++ [item]) x hx with h' | h'
      · rcases List.mem_append.mp h' with h'' | h''
        · exact Or.inl h''
        · exact Or.inr (List.mem_cons.mpr (Or.inl (List.mem_singleton.mp h'')))
      · exact Or.inr (List.mem_cons_of_mem _ h')

theorem uniqueComplex_subset (arr : List α) (key : α → String) :
    uniqueComplex arr key ⊆ arr := by
  intro x hx
  rcases uniqueComplexGo_subset key [] arr x hx with h | h
  · simp at h
  · exact h

theorem uniqueComplexGo_keys_nodup (key : α → String) (acc l : List α)
    (h : (acc.map key).Nodup) : ((uniqueComplexGo key acc l).map key).Nodup := by
  induction l generalizing acc with
  | nil => simpa [uniqueComplexGo] using h
  | cons item rest ih =>
    simp only [uniqueComplexGo]
    by_cases hmem : acc.any (fun i => key i = key item)
    · rw [if_pos hmem]; exact ih acc h
    · rw [if_neg hmem]
      refine ih (acc ++ [item]) ?_
      rw [List.map_append, List.map_singleton]
      refine List.Nodup.append h (List.nodup_singleton _) ?_
      intro k hk hk'
      rw [List.mem_singleton] at hk'
      subst hk'
      rcases List.mem_map.mp hk with ⟨i, hi, hkey⟩
      exact hmem (List.any_eq_true.mpr ⟨i, hi, decide_eq_true hkey⟩)

theorem uniqueComplex_keys_nodup (arr : List α) (key : α → String) :
    ((uniqueComplex arr key).map key).Nodup :=
  uniqueComplexGo_keys_nodup key [] arr (by simp)

theorem uniqueComplexGo_mem_of_inj (key : α → String) (acc l : List α)
    (hinj : ∀ a ∈ acc ++ l, ∀ b ∈ acc ++ l, key a = key b → a = b) :
    ∀ x ∈ l, x ∈ uniqueComplexGo key acc l := by
  induction l generalizing acc with
  | nil => intro x hx; simp at hx
  | cons item rest ih =>
    intro x hx
    simp only [uniqueComplexGo]
    by_cases h : acc.any (fun i => key i = key item)
    · rw [if_pos h]
      rcases List.any_eq_true.mp h with ⟨i, hi, hkey⟩
      have hkey' : key i = key item := of_decide_eq_true hkey
      have : i = item :=
        hinj i (List.mem_append_left _ hi) item
          (List.mem_append_right _ (List.mem_cons_self _ _)) hkey'
      subst this
      rcases List.mem_cons.mp hx with rfl | hx'
      · exact uniqueComplexGo_acc_subset key acc rest hi
      · refine ih acc ?_ x hx'
        intro a ha b hb
        refine hinj a ?_ b ?_ <;>
          [skip; skip] <;>
          first
          | exact (List.mem_append.mpr (Or.elim (List.mem_append.mp ‹_›) Or.inl
              (fun h' => Or.inr (List.mem_cons_of_mem _ h'))))
    · rw [if_neg h]
      rcases List.mem_cons.mp hx with rfl | hx'
      · exact uniqueComplexGo_acc_subset key (acc ++ [x]) rest
          (List.mem_append_right _ (List.mem_singleton_self _))
      · refine ih (acc ++ [item]) ?_ x hx'
        intro a ha b hb
        have reshuffle : ∀ c, c ∈ (acc ++ [item]) ++ rest → c ∈ acc ++ item :: rest := by
          intro c hc
          rcases List.mem_append.mp hc with hc' | hc'
          · rcases List.mem_append.mp hc' with hc'' | hc''
            · exact List.mem_append_left _ hc''
            · exact List.mem_append_right _
                (List.mem_cons.mpr (Or.inl (List.mem_singleton.mp hc'')))
          · exact List.mem_append_right _ (List.mem_cons_of_mem _ hc')
        exact hinj a (reshuffle a ha) b (reshuffle b hb)

theorem uniqueComplex_mem_of_inj (arr : List α) (key : α → String)
    (hinj : ∀ a ∈ arr, ∀ b ∈ arr, key a = key b → a = b) :
    ∀ x ∈ arr, x ∈ uniqueComplex arr key := by
  intro x hx
  refine uniqueComplexGo_mem_of_inj key [] arr ?_ x hx
  simpa using hinj

/-! ## `join('.')`: injectivity on separator-free nonempty tokens -/

/-- A valid with-value token: nonempty and not containing the `"."`
separator (the `GerritAPIWith` enum values all are). -/
def ValidToken (s : String) : Prop :=
  s ≠ "" ∧ '.' ∉ s.data

theorem sep_split_inj {a b u v : List Char} (ha : '.' ∉ a) (hb : '.' ∉ b)
    (h : a ++ '.' :: u = b ++ '.' :: v) : a = b ∧ u = v := by
  induction a generalizing b with
  | nil =>
    cases b with
    | nil => simpa using h
    | cons y ys =>
      simp only [List.nil_append, List.cons_append, List.cons.injEq] at h
      exact absurd (h.1 ▸ List.mem_cons_self y ys) hb
  | cons x xs ih =>
    cases b with
    | nil =>
      simp only [List.cons_append, List.nil_append, List.cons.injEq] at h
      exact absurd (h.1 ▸ List.mem_cons_self x xs) ha
    | cons y ys =>
      simp only [List.cons_append, List.cons.injEq] at h
      obtain ⟨rfl, h2⟩ := h
      have := ih (fun hm => ha (List.mem_cons_of_mem _ hm))
        (fun hm => hb (List.mem_cons_of_mem _ hm)) h2
      exact ⟨by rw [this.1], this.2⟩

theorem joinSep_data_cons_cons (x y : String) (ys : List String) :
    (joinSep "." (x :: y :: ys)).data = x.data ++ '.' :: (joinSep "." (y :: ys)).data := by
  show (x ++ "." ++ joinSep "." (y :: ys)).data = _
  rw [String.data_append, String.data_append, List.append_assoc]
  rfl

theorem joinSep_inj {l₁ l₂ : List String} (h₁ : ∀ t ∈ l₁, ValidToken t)
    (h₂ : ∀ t ∈ l₂, ValidToken t) (h : joinSep "." l₁ = joinSep "." l₂) : l₁ = l₂ := by
  induction l₁ generalizing l₂ with
  | nil =>
    cases l₂ with
    | nil => rfl
    | cons y ys =>
      cases ys with
      | nil =>
        exact absurd (show y = "" by simpa [joinSep] using h.symm)
          (h₂ y (List.mem_cons_self _ _)).1
      | cons y2 ys2 =>
        have hd := congrArg String.data h
        rw [joinSep_data_cons_cons] at hd
        have hd' : ([] : List Char) = y.data ++ '.' :: (joinSep "." (y2 :: ys2)).data := hd
        simp at hd'
  | cons x xs ih =>
    cases l₂ with
    | nil =>
      cases xs with
      | nil =>
        exact absurd (show x = "" by simpa [joinSep] using h)
          (h₁ x (List.mem_cons_self _ _)).1
      | cons x2 xs2 =>
        have hd := congrArg String.data h
        rw [joinSep_data_cons_cons] at hd
        have hd' : x.data ++ '.' :: (joinSep "." (x2 :: xs2)).data = ([] : List Char) := hd
        simp at hd'
    | cons y ys =>
      cases xs with
      | nil =>
        cases ys with
        | nil =>
          have : x = y := by simpa [joinSep] using h
          rw [this]
        | cons y2 ys2 =>
          have hd := congrArg String.data h
          rw [joinSep_data_cons_cons] at hd
          have hdot : '.' ∈ x.data := by
            have hd' : x.data = y.data ++ '.' :: (joinSep "." (y2 :: ys2)).data := hd
            rw [hd']
            exact List.mem_append_right _ (List.mem_cons_self _ _)
          exact absurd hdot (h₁ x (List.mem_cons_self _ _)).2
      | cons x2 xs2 =>
        cases ys with
        | nil =>
          have hd := congrArg String.data h
          rw [joinSep_data_cons_cons] at hd
          have hdot : '.' ∈ y.data := by
            have hd' : x.data ++ '.' :: (joinSep "." (x2 :: xs2)).data = y.data := hd
            rw [← hd']
            exact List.mem_append_right _ (List.mem_cons_self _ _)
          exact absurd hdot (h₂ y (List.mem_cons_self _ _)).2
        | cons y2 ys2 =>
          have hd := congrArg String.data h
          rw [joinSep_data_cons_cons, joinSep_data_cons_cons] at hd
          obtain ⟨hxy, hrest⟩ := sep_split_inj (h₁ x (List.mem_cons_self _ _)).2
            (h₂ y (List.mem_cons_self _ _)).2 hd
          have hx : x = y := String.ext hxy
          have hxs : x2 :: xs2 = y2 :: ys2 :=
            ih (fun t ht => h₁ t (List.mem_cons_of_mem _ ht))
              (fun t ht => h₂ t (List.mem_cons_of_mem _ ht)) (String.ext hrest)
          rw [hx, hxs]

/-! ## Cache lemmas -/

theorem cacheSet_apply_ne {E : Type} (s : GerritChangeCacheState E) (cid : String)
    (w : List String) (e : E) (id : String) (h : id ≠ cid) :
    cacheSet s cid w e id = s id := by
  simp [cacheSet, h]

theorem cacheSet_apply_self_isSome {E : Type} (s : GerritChangeCacheState E)
    (cid : String) (w : List String) (e : E) : (cacheSet s cid w e cid).isSome := by
  simp [cacheSet]

theorem cacheEntry_set {E : Type} (s : GerritChangeCacheState E) (cid : String)
    (w : List String) (e : E) (id k : String) :
    cacheEntry (cacheSet s cid w e) id k =
      if id = cid ∧ k = withValuesToString w then some e else cacheEntry s id k := by
  by_cases hid : id = cid
  · subst hid
    by_cases hk : k = withValuesToString w
    · simp [cacheEntry, cacheSet, hk]
    · simp only [cacheEntry, cacheSet, if_pos rfl, hk, and_false, if_neg, if_false,
        not_false_iff]
      cases hs : s id with
      | none => simp [hs, if_neg hk]
      | some sub => simp [hs, if_neg hk]
  · simp [cacheEntry, cacheSet, hid]

theorem runCacheOpsFrom_apply_none_iff {E : Type} (ops : List (CacheSetOp E))
    (s : GerritChangeCacheState E) (id : String) :
    runCacheOpsFrom s ops id = none ↔ s id = none ∧ ∀ op ∈ ops, op.changeId ≠ id := by
  induction ops generalizing s with
  | nil => simp [runCacheOpsFrom]
  | cons op ops ih =>
    simp only [runCacheOpsFrom, ih, List.mem_cons]
    constructor
    · rintro ⟨hset, hops⟩
      by_cases hid : id = op.changeId
      · subst hid
        have := cacheSet_apply_self_isSome s op.changeId op.withValues op.change
        rw [hset] at this
        simp at this
      · rw [cacheSet_apply_ne _ _ _ _ _ hid] at hset
        refine ⟨hset, ?_⟩
        rintro op' (rfl | hmem)
        · exact fun h => hid h.symm
        · exact hops op' hmem
    · rintro ⟨hs, hops⟩
      have hid : op.changeId ≠ id := hops op (Or.inl rfl)
      rw [cacheSet_apply_ne _ _ _ _ _ (fun h => hid h.symm)]
      exact ⟨hs, fun op' hmem => hops op' (Or.inr hmem)⟩

theorem cacheEntry_runCacheOpsFrom_none_iff {E : Type} (ops : List (CacheSetOp E))
    (s : GerritChangeCacheState E) (id k : String) :
    cacheEntry (runCacheOpsFrom s ops) id k = none ↔
      cacheEntry s id k = none ∧
        ∀ op ∈ ops, ¬(op.changeId = id ∧ withValuesToString op.withValues = k) := by
  induction ops generalizing s with
  | nil => simp [runCacheOpsFrom]
  | cons op ops ih =>
    simp only [runCacheOpsFrom, ih, cacheEntry_set, List.mem_cons]
    by_cases h : id = op.changeId ∧ k = withValuesToString op.withValues
    · rw [if_pos h]
      constructor
      · rintro ⟨hsome, _⟩; exact absurd hsome (by simp)
      · rintro ⟨_, hops⟩
        exact absurd ⟨h.1.symm, h.2.symm⟩ (hops op (Or.inl rfl))
    · rw [if_neg h]
      constructor
      · rintro ⟨he, hops⟩
        refine ⟨he, ?_⟩
        rintro op' (rfl | hmem)
        · rintro ⟨h1, h2⟩; exact h ⟨h1.symm, h2.symm⟩
        · exact hops op' hmem
      · rintro ⟨he, hops⟩
        exact ⟨he, fun op' hmem => hops op' (Or.inr hmem)⟩

theorem cacheGet_eq_null_iff {E : Type} (s : GerritChangeCacheState E)
    (id : String) (w : List String) : cacheGet s id w = .null ↔ s id = none := by
  cases hs : s id with
  | none => simp [cacheGet, hs]
  | some sub =>
    simp only [cacheGet, hs]
    cases sub (withValuesToString w) <;> simp

theorem cacheGet_eq_undefined_iff {E : Type} (s : GerritChangeCacheState E)
    (id : String) (w : List String) :
    cacheGet s id w = .undefined ↔
      (s id).isSome ∧ cacheEntry s id (withValuesToString w) = none := by
  cases hs : s id with
  | none => simp [cacheGet, cacheEntry, hs]
  | some sub =>
    simp only [cacheGet, cacheEntry, hs, Option.isSome_some, true_and]
    cases sub (withValuesToString w) <;> simp

/-- C5: for every reachable cache state (a sequence of `set` operations on
a fresh cache), `get(id, options)` is `null` iff no entry was ever stored
under `id` under any option set; it is `undefined` iff `id` has at least
one stored entry but none under the normalized key of `options`; and
`set(id, opts, e)` immediately followed by `get(id, opts)` returns `e`. -/
theorem C5_cache_get_trichotomy (E : Type) (ops : List (CacheSetOp E))
    (s : GerritChangeCacheState E) (id : String) (w : List String) (e : E) :
    (cacheGet (runCacheOps ops) id w = .null ↔ ∀ op ∈ ops, op.changeId ≠ id) ∧
    (cacheGet (runCacheOps ops) id w = .undefined ↔
      (∃ op ∈ ops, op.changeId = id) ∧
        ∀ op ∈ ops, op.changeId = id →
          withValuesToString op.withValues ≠ withValuesToString w) ∧
    cacheGet (cacheSet s id w e) id w = .found e := by
  refine ⟨?_, ?_, ?_⟩
  · rw [cacheGet_eq_null_iff, runCacheOps, runCacheOpsFrom_apply_none_iff]
    simp [emptyCache]
  · rw [cacheGet_eq_undefined_iff, runCacheOps, cacheEntry_runCacheOpsFrom_none_iff]
    rw [Option.isSome_iff_ne_none, Ne, runCacheOpsFrom_apply_none_iff]
    constructor
    · rintro ⟨hne, _, hops⟩
      push_neg at hne
      rcases hne (by simp [emptyCache]) with ⟨op, hmem, hid⟩
      refine ⟨⟨op, hmem, hid⟩, ?_⟩
      intro op' hmem' hid' hkey
      exact hops op' hmem' ⟨hid', hkey⟩
    · rintro ⟨⟨op, hmem, hid⟩, hops⟩
      refine ⟨?_, by simp [cacheEntry, emptyCache], ?_⟩
      · rintro ⟨_, hall⟩
        exact hall op hmem hid
      · rintro op' hmem' ⟨hid', hkey⟩
        exact hops op' hmem' hid' hkey
  · simp [cacheGet, cacheSet]

/-- C6 counterexample: entries are not immutable once set — a second
`set` under the same (id, normalized key) pair overwrites the stored
entity (the id's sub-`Map`'s `set` replaces the key's value). -/
theorem C6_overwrite_cex :
    cacheGet (cacheSet (cacheSet (emptyCache Nat) "c" ["a"] 0) "c" ["a"] 1) "c" ["a"] =
      .found 1 ∧
    CacheGetResult.found 1 ≠ (CacheGetResult.found 0 : CacheGetResult Nat) := by
  constructor
  · decide
  · decide

/-- C6 (amended): a `set` under `(id, options)` touches exactly the entry
at `(id, normalize options)` — every entry under a different id or a
different normalized key (in particular a superset option set) is left
unchanged, never merged; a repeated `set` under the same pair overwrites
(last write wins). -/
theorem C6_set_is_per_key (E : Type) (s : GerritChangeCacheState E)
    (id : String) (w : List String) (e : E) (id' : String) (w' : List String) :
    cacheEntry (cacheSet s id w e) id' (withValuesToString w') =
      if id' = id ∧ withValuesToString w' = withValuesToString w then some e
      else cacheEntry s id' (withValuesToString w') :=
  cacheEntry_set s id w e id' (withValuesToString w')

/-- C7 counterexample: the normalized key is not a function of the *set*
of elements — `['a','a']` and `['a']` have the same element set, but
`sort().join('.')` does not deduplicate, so their keys differ. -/
theorem C7_duplicate_collision_cex :
    (∀ x : String, x ∈ ["a", "a"] ↔ x ∈ ["a"]) ∧
    withValuesToString ["a", "a"] ≠ withValuesToString ["a"] := by
  constructor
  · intro x; simp
  · decide

/-- C7 (amended): over a vocabulary of nonempty tokens not containing the
separator `'.'`, two collections normalize to the same key iff they are
equal as *multisets* (permutations of each other): order never matters,
but duplicates do; distinct multisets — in particular `['a']` versus
`['a','b']` — never collide. -/
theorem C7_normalize_multiset (v1 v2 : List String)
    (h1 : ∀ t ∈ v1, ValidToken t) (h2 : ∀ t ∈ v2, ValidToken t) :
    withValuesToString v1 = withValuesToString v2 ↔ v1.Perm v2 := by
  constructor
  · intro h
    have hs : sortBy strLe v1 = sortBy strLe v2 :=
      joinSep_inj (fun t ht => h1 t ((sortBy_perm strLe v1).mem_iff.mp ht))
        (fun t ht => h2 t ((sortBy_perm strLe v2).mem_iff.mp ht)) h
    have h2p := sortBy_perm strLe v2
    rw [← hs] at h2p
    exact (sortBy_perm strLe v1).symm.trans h2p
  · intro hp
    have hperm : (sortBy strLe v1).Perm (sortBy strLe v2) :=
      (sortBy_perm strLe v1).trans (hp.trans (sortBy_perm strLe v2).symm)
    have hs : sortBy strLe v1 = sortBy strLe v2 :=
      sorted_perm_eq strLe strLe_antisymm hperm
        (sortBy_sorted strLe strLe_total strLe_trans v1)
        (sortBy_sorted strLe strLe_total strLe_trans v2)
    show joinSep "." (sortBy strLe v1) = joinSep "." (sortBy strLe v2)
    rw [hs]

/-- C7 witness: the amended theorem applied at `['b','a']` / `['a','b']`. -/
theorem C7_normalize_multiset_witness :
    (∀ t ∈ ["b", "a"], ValidToken t) ∧ (∀ t ∈ ["a", "b"], ValidToken t) ∧
    withValuesToString ["b", "a"] = withValuesToString ["a", "b"] := by
  have h1 : ∀ t ∈ ["b", "a"], ValidToken t := by
    intro t ht
    rcases List.mem_cons.mp ht with rfl | ht
    · exact ⟨by decide, by decide⟩
    · rcases List.mem_singleton.mp ht with rfl
      exact ⟨by decide, by decide⟩
  have h2 : ∀ t ∈ ["a", "b"], ValidToken t := by
    intro t ht
    rcases List.mem_cons.mp ht with rfl | ht
    · exact ⟨by decide, by decide⟩
    · rcases List.mem_singleton.mp ht with rfl
      exact ⟨by decide, by decide⟩
  exact ⟨h1, h2, (C7_normalize_multiset _ _ h1 h2).mpr (by decide)⟩

/-! ## Reachability and the recursive expansion -/

theorem comment_id_inj {all : List GerritCommentBase}
    (hnd : (all.map GerritCommentBase.id).Nodup) {a b : GerritCommentBase}
    (ha : a ∈ all) (hb : b ∈ all) (h : a.id = b.id) : a = b :=
  List.inj_on_of_nodup_map hnd ha hb h

theorem Reaches.mem_left {all : List GerritCommentBase} {c p : GerritCommentBase}
    (h : Reaches all c p) : c ∈ all := by
  cases h with
  | refl _ hc => exact hc
  | step _ _ _ hc _ _ => exact hc

theorem Reaches.mem_right {all : List GerritCommentBase} {c p : GerritCommentBase}
    (h : Reaches all c p) : p ∈ all := by
  induction h with
  | refl _ hc => exact hc
  | step _ _ _ _ _ _ ih => exact ih

theorem reaches_trans {all : List GerritCommentBase} {a b c : GerritCommentBase}
    (hab : Reaches all a b) (hbc : Reaches all b c) : Reaches all a c := by
  induction hab with
  | refl _ _ => exact hbc
  | step x p _ hx hrep _ ih => exact Reaches.step x p c hx hrep (ih hbc)

theorem getAllRepliesToList_mem {f : GerritCommentBase → Option (List GerritCommentBase)}
    {cs recs : List GerritCommentBase} (h : getAllRepliesToList f cs = some recs) :
    ∀ x ∈ recs, ∃ c ∈ cs, ∃ t, f c = some t ∧ x ∈ t := by
  induction cs generalizing recs with
  | nil =>
    intro x hx
    simp only [getAllRepliesToList] at h
    cases h
    simp at hx
  | cons c cs ih =>
    intro x hx
    simp only [getAllRepliesToList] at h
    cases hfc : f c with
    | none => rw [hfc] at h; exact absurd h (by simp)
    | some a =>
      cases hrest : getAllRepliesToList f cs with
      | none => rw [hfc, hrest] at h; exact absurd h (by simp)
      | some b =>
        rw [hfc, hrest] at h
        cases h
        rcases List.mem_append.mp hx with hxa | hxb
        · exact ⟨c, List.mem_cons_self _ _, a, hfc, hxa⟩
        · rcases ih hrest x hxb with ⟨c', hc', t', ht', hx'⟩
          exact ⟨c', List.mem_cons_of_mem _ hc', t', ht', hx'⟩

theorem getAllRepliesToList_sub {f : GerritCommentBase → Option (List GerritCommentBase)}
    {cs recs : List GerritCommentBase} (h : getAllRepliesToList f cs = some recs) :
    ∀ c ∈ cs, ∃ t, f c = some t ∧ t ⊆ recs := by
  induction cs generalizing recs with
  | nil => intro c hc; simp at hc
  | cons c0 cs ih =>
    intro c hc
    simp only [getAllRepliesToList] at h
    cases hfc : f c0 with
    | none => rw [hfc] at h; exact absurd h (by simp)
    | some a =>
      cases hrest : getAllRepliesToList f cs with
      | none => rw [hfc, hrest] at h; exact absurd h (by simp)
      | some b =>
        rw [hfc, hrest] at h
        cases h
        rcases List.mem_cons.mp hc with rfl | hc'
        · exact ⟨a, hfc, fun x hx => List.mem_append_left _ hx⟩
        · rcases ih hrest c hc' with ⟨t, ht, hsub⟩
          exact ⟨t, ht, fun x hx => List.mem_append_right _ (hsub hx)⟩

theorem getAllRepliesToList_isSome {f : GerritCommentBase → Option (List GerritCommentBase)}
    {cs : List GerritCommentBase} (h : ∀ c ∈ cs, (f c).isSome) :
    (getAllRepliesToList f cs).isSome := by
  induction cs with
  | nil => simp [getAllRepliesToList]
  | cons c cs ih =>
    simp only [getAllRepliesToList]
    cases hfc : f c with
    | none =>
      have := h c (List.mem_cons_self _ _)
      rw [hfc] at this
      simp at this
    | some a =>
      cases hrest : getAllRepliesToList f cs with
      | none =>
        have := ih fun c' hc' => h c' (List.mem_cons_of_mem _ hc')
        rw [hrest] at this
        simp at this
      | some b => simp

theorem uniqueComplex_head_mem (key : α → String) (a : α) (l : List α) :
    a ∈ uniqueComplex (a :: l) key := by
  simp only [uniqueComplex, uniqueComplexGo]
  rw [if_neg (by simp)]
  exact uniqueComplexGo_acc_subset key ([] ++ [a]) l
    (List.mem_append_right _ (List.mem_singleton_self a))

theorem gar_some_sub {all : List GerritCommentBase} :
    ∀ {fuel : Nat} {q : GerritCommentBase} {t : List GerritCommentBase},
      getAllRepliesTo fuel q all = some t → q ∈ all → ∀ x ∈ t, x ∈ all := by
  intro fuel
  induction fuel with
  | zero => intro q t h; simp [getAllRepliesTo] at h
  | succ fuel ih =>
    intro q t h hq x hx
    simp only [getAllRepliesTo] at h
    cases hrec : getAllRepliesToList (fun r => getAllRepliesTo fuel r all)
        (all.filter fun c => c.inReplyTo = some q.id) with
    | none => rw [hrec] at h; exact absurd h (by simp)
    | some recs =>
      rw [hrec] at h
      obtain rfl := Option.some.inj h
      have hx' := uniqueComplex_subset _ _ hx
      rcases List.mem_append.mp hx' with hx'' | hx''
      · rcases List.mem_cons.mp hx'' with rfl | hx3
        · exact hq
        · exact List.mem_of_mem_filter hx3
      · rcases getAllRepliesToList_mem hrec x hx'' with ⟨c, hc, t', ht', hxt⟩
        exact ih ht' (List.mem_of_mem_filter hc) x hxt

theorem gar_self_mem {all : List GerritCommentBase} {fuel : Nat}
    {q : GerritCommentBase} {t : List GerritCommentBase}
    (h : getAllRepliesTo fuel q all = some t) : q ∈ t := by
  cases fuel with
  | zero => simp [getAllRepliesTo] at h
  | succ fuel =>
    simp only [getAllRepliesTo] at h
    cases hrec : getAllRepliesToList (fun r => getAllRepliesTo fuel r all)
        (all.filter fun c => c.inReplyTo = some q.id) with
    | none => rw [hrec] at h; exact absurd h (by simp)
    | some recs =>
      rw [hrec] at h
      obtain rfl := Option.some.inj h
      exact uniqueComplex_head_mem GerritCommentBase.id q _

theorem mem_uniqueComplex_id_of_nodup {all arr : List GerritCommentBase}
    (hnd : (all.map GerritCommentBase.id).Nodup) (hsub : ∀ x ∈ arr, x ∈ all) :
    ∀ x ∈ arr, x ∈ uniqueComplex arr GerritCommentBase.id :=
  uniqueComplex_mem_of_inj arr _
    (fun a ha b hb hid => comment_id_inj hnd (hsub a ha) (hsub b hb) hid)

theorem gar_mem_reaches {all : List GerritCommentBase} :
    ∀ {fuel : Nat} {q : GerritCommentBase} {t : List GerritCommentBase},
      getAllRepliesTo fuel q all = some t → q ∈ all → ∀ x ∈ t, Reaches all x q := by
  intro fuel
  induction fuel with
  | zero => intro q t h; simp [getAllRepliesTo] at h
  | succ fuel ih =>
    intro q t h hq x hx
    simp only [getAllRepliesTo] at h
    cases hrec : getAllRepliesToList (fun r => getAllRepliesTo fuel r all)
        (all.filter fun c => c.inReplyTo = some q.id) with
    | none => rw [hrec] at h; exact absurd h (by simp)
    | some recs =>
      rw [hrec] at h
      obtain rfl := Option.some.inj h
      have hx' := uniqueComplex_subset _ _ hx
      rcases List.mem_append.mp hx' with hx'' | hx''
      · rcases List.mem_cons.mp hx'' with rfl | hx3
        · exact Reaches.refl x hq
        · rcases List.mem_filter.mp hx3 with ⟨hxall, hxrep⟩
          exact Reaches.step x q q hxall (of_decide_eq_true hxrep) (Reaches.refl q hq)
      · rcases getAllRepliesToList_mem hrec x hx'' with ⟨d, hd, t', ht', hxt⟩
        rcases List.mem_filter.mp hd with ⟨hdall, hdrep⟩
        have hxd : Reaches all x d := ih ht' hdall x hxt
        exact reaches_trans hxd
          (Reaches.step d q q hdall (of_decide_eq_true hdrep) (Reaches.refl q hq))

theorem gar_reply_closed {all : List GerritCommentBase}
    (hnd : (all.map GerritCommentBase.id).Nodup) {p c : GerritCommentBase}
    (hc : c ∈ all) (hrep : c.inReplyTo = some p.id) :
    ∀ {fuel : Nat} {q : GerritCommentBase} {t : List GerritCommentBase},
      getAllRepliesTo fuel q all = some t → q ∈ all → p ∈ t → c ∈ t := by
  intro fuel
  induction fuel with
  | zero => intro q t h; simp [getAllRepliesTo] at h
  | succ fuel ih =>
    intro q t h hq hp
    simp only [getAllRepliesTo] at h
    cases hrec : getAllRepliesToList (fun r => getAllRepliesTo fuel r all)
        (all.filter fun c' => c'.inReplyTo = some q.id) with
    | none => rw [hrec] at h; exact absurd h (by simp)
    | some recs =>
      rw [hrec] at h
      obtain rfl := Option.some.inj h
      have hsubL : ∀ x ∈ (q :: all.filter fun c' => c'.inReplyTo = some q.id) ++ recs,
          x ∈ all := by
        intro x hx
        rcases List.mem_append.mp hx with hx' | hx'
        · rcases List.mem_cons.mp hx' with rfl | hx''
          · exact hq
          · exact List.mem_of_mem_filter hx''
        · rcases getAllRepliesToList_mem hrec x hx' with ⟨d, hd, t', ht', hxt⟩
          exact gar_some_sub ht' (List.mem_of_mem_filter hd) x hxt
      have hmemL := uniqueComplex_subset _ _ hp
      have hcL : c ∈ (q :: all.filter fun c' => c'.inReplyTo = some q.id) ++ recs := by
        rcases List.mem_append.mp hmemL with hp' | hp'
        · rcases List.mem_cons.mp hp' with rfl | hp''
          · exact List.mem_append_left _ (List.mem_cons_of_mem _
              (List.mem_filter.mpr ⟨hc, by simp [hrep]⟩))
          · rcases getAllRepliesToList_sub hrec p hp'' with ⟨tp, htp, hsub⟩
            exact List.mem_append_right _
              (hsub (ih htp (List.mem_of_mem_filter hp'') (gar_self_mem htp)))
        · rcases getAllRepliesToList_mem hrec p hp' with ⟨d, hd, t', ht', hpt⟩
          rcases getAllRepliesToList_sub hrec d hd with ⟨t'', ht'', hsub⟩
          obtain rfl : t' = t'' := Option.some.inj (ht'.symm.trans ht'')
          exact List.mem_append_right _
            (hsub (ih ht' (List.mem_of_mem_filter hd) hpt))
      exact mem_uniqueComplex_id_of_nodup hnd hsubL c hcL

theorem gar_reaches_mem {all : List GerritCommentBase}
    (hnd : (all.map GerritCommentBase.id).Nodup) {x q : GerritCommentBase}
    (hx : Reaches all x q) :
    ∀ {fuel : Nat} {t : List GerritCommentBase},
      getAllRepliesTo fuel q all = some t → q ∈ all → x ∈ t := by
  induction hx with
  | refl c _ => intro fuel t h _; exact gar_self_mem h
  | step c p q' hcall hcrep _ ih =>
    intro fuel t h hq'
    exact gar_reply_closed hnd hcall hcrep h hq' (ih h hq')

/-! ## Upward chains: uniqueness, distinctness, and the fuel bound -/

theorem isUpChain_sub {all : List GerritCommentBase} :
    ∀ {l}, IsUpChain all l → ∀ x ∈ l, x ∈ all := by
  intro l h
  induction h with
  | root c hc _ =>
    intro x hx
    rcases List.mem_singleton.mp hx with rfl
    exact hc
  | step c p rest hc _ _ ih =>
    intro x hx
    rcases List.mem_cons.mp hx with rfl | hx'
    · exact hc
    · exact ih x hx'

theorem upChain_unique {all : List GerritCommentBase}
    (hnd : (all.map GerritCommentBase.id).Nodup) :
    ∀ {l1}, IsUpChain all l1 → ∀ {l2}, IsUpChain all l2 →
      l1.head? = l2.head? → l1 = l2 := by
  intro l1 h1
  induction h1 with
  | root c hc hnone =>
    intro l2 h2 hhead
    cases h2 with
    | root d hd hdnone =>
      obtain rfl : c = d := by simpa using hhead
      rfl
    | step d p rest hd hdrep h2' =>
      obtain rfl : c = d := by simpa using hhead
      rw [hnone] at hdrep
      exact absurd hdrep (by simp)
  | step c p rest hc hcrep h1' ih =>
    intro l2 h2 hhead
    cases h2 with
    | root d hd hdnone =>
      obtain rfl : c = d := by simpa using hhead
      rw [hdnone] at hcrep
      exact absurd hcrep (by simp)
    | step d p2 rest2 hd hdrep h2' =>
      obtain rfl : c = d := by simpa using hhead
      have hp : p = p2 := by
        have hid : p.id = p2.id := by
          rw [hcrep] at hdrep
          exact Option.some.inj hdrep
        exact comment_id_inj hnd (isUpChain_sub h1' p (List.mem_cons_self _ _))
          (isUpChain_sub h2' p2 (List.mem_cons_self _ _)) hid
      subst hp
      have := ih h2' rfl
      rw [this]

theorem upChain_suffix {all : List GerritCommentBase} :
    ∀ {l}, IsUpChain all l → ∀ {c}, c ∈ l →
      ∃ pre s, l = pre ++ c :: s ∧ IsUpChain all (c :: s) := by
  intro l h
  induction h with
  | root d hd hdnone =>
    intro c hc
    rcases List.mem_singleton.mp hc with rfl
    exact ⟨[], [], rfl, IsUpChain.root c hd hdnone⟩
  | step d p rest hd hdrep hchain ih =>
    intro c hc
    rcases List.mem_cons.mp hc with rfl | hc'
    · exact ⟨[], p :: rest, rfl, IsUpChain.step c p rest hd hdrep hchain⟩
    · rcases ih hc' with ⟨pre, s, heq, hchain'⟩
      exact ⟨d :: pre, s, by rw [List.cons_append, ← heq], hchain'⟩

theorem upChain_nodup {all : List GerritCommentBase}
    (hnd : (all.map GerritCommentBase.id).Nodup) :
    ∀ {l}, IsUpChain all l → l.Nodup := by
  intro l h
  induction h with
  | root c _ _ => simp
  | step c p rest hc hcrep hchain ih =>
    refine List.nodup_cons.mpr ⟨?_, ih⟩
    intro hmem
    rcases upChain_suffix hchain hmem with ⟨pre, s, heq, hchain'⟩
    have hfull : IsUpChain all (c :: p :: rest) := IsUpChain.step c p rest hc hcrep hchain
    have htails : c :: p :: rest = c :: s := upChain_unique hnd hfull hchain' rfl
    have hts : p :: rest = s := by injection htails
    rw [← hts] at heq
    have hlen := congrArg List.length heq
    simp [List.length_append] at hlen
    omega

theorem upChain_length_le {all : List GerritCommentBase}
    (hnd : (all.map GerritCommentBase.id).Nodup) {l : List GerritCommentBase}
    (h : IsUpChain all l) : l.length ≤ all.length :=
  ((upChain_nodup hnd h).subperm fun _ hx => isUpChain_sub h _ hx).length_le

theorem gar_isSome_of_chain {all : List GerritCommentBase}
    (hnd : (all.map GerritCommentBase.id).Nodup) :
    ∀ (fuel : Nat) {c : GerritCommentBase} {rest : List GerritCommentBase},
      IsUpChain all (c :: rest) → all.length + 1 ≤ fuel + (c :: rest).length →
      (getAllRepliesTo fuel c all).isSome := by
  intro fuel
  induction fuel with
  | zero =>
    intro c rest hchain hlen
    have hle := upChain_length_le hnd hchain
    simp only [List.length_cons, Nat.zero_add] at hlen hle
    omega
  | succ fuel ih =>
    intro c rest hchain hlen
    simp only [getAllRepliesTo]
    have hlist : (getAllRepliesToList (fun r => getAllRepliesTo fuel r all)
        (all.filter fun c' => c'.inReplyTo = some c.id)).isSome := by
      refine getAllRepliesToList_isSome ?_
      intro d hd
      rcases List.mem_filter.mp hd with ⟨hdall, hdrep⟩
      have hchain' : IsUpChain all (d :: c :: rest) :=
        IsUpChain.step d c rest hdall (of_decide_eq_true hdrep) hchain
      refine ih hchain' ?_
      simp only [List.length_cons] at hlen ⊢
      omega
    rcases Option.isSome_iff_exists.mp hlist with ⟨recs, hrec⟩
    rw [hrec]
    simp

theorem buildRootThreads_isSome {all : List GerritCommentBase}
    (hnd : (all.map GerritCommentBase.id).Nodup) {fuel : Nat}
    (hfuel : all.length ≤ fuel) :
    ∀ {roots : List GerritCommentBase},
      (∀ r ∈ roots, r ∈ all ∧ r.inReplyTo = none) →
      (buildRootThreads fuel all roots).isSome := by
  intro roots
  induction roots with
  | nil => intro _; simp [buildRootThreads]
  | cons r rs ih =>
    intro hroots
    obtain ⟨hr, hrnone⟩ := hroots r (List.mem_cons_self _ _)
    have hgar : (getAllRepliesTo fuel r all).isSome := by
      refine gar_isSome_of_chain hnd fuel (IsUpChain.root r hr hrnone) ?_
      simp only [List.length_cons, List.length_nil]
      omega
    have hrest : (buildRootThreads fuel all rs).isSome :=
      ih fun r' hr' => hroots r' (List.mem_cons_of_mem _ hr')
    rcases Option.isSome_iff_exists.mp hgar with ⟨t, ht⟩
    rcases Option.isSome_iff_exists.mp hrest with ⟨ts, hts⟩
    simp only [buildRootThreads, ht, hts]
    simp

/-! ## The builder as a whole -/

theorem buildRootThreads_some_iff {fuel : Nat} {all : List GerritCommentBase} :
    ∀ {roots : List GerritCommentBase} {ts : List (List GerritCommentBase)},
      buildRootThreads fuel all roots = some ts ↔
        List.Forall₂ (fun r t => getAllRepliesTo fuel r all = some t) roots ts := by
  intro roots
  induction roots with
  | nil =>
    intro ts
    constructor
    · intro h
      simp only [buildRootThreads] at h
      obtain rfl := Option.some.inj h
      exact List.Forall₂.nil
    · intro h
      cases h
      rfl
  | cons r rs ih =>
    intro ts
    constructor
    · intro h
      simp only [buildRootThreads] at h
      cases hg : getAllRepliesTo fuel r all with
      | none => rw [hg] at h; exact absurd h (by simp)
      | some t =>
        cases hrest : buildRootThreads fuel all rs with
        | none => rw [hg, hrest] at h; exact absurd h (by simp)
        | some ts' =>
          rw [hg, hrest] at h
          obtain rfl := Option.some.inj h
          exact List.Forall₂.cons hg (ih.mp hrest)
    · intro h
      cases h with
      | cons hg hrest =>
        simp only [buildRootThreads, hg, ih.mpr hrest]

theorem forall₂_mem_right {R : α → β → Prop} :
    ∀ {l1 : List α} {l2 : List β}, List.Forall₂ R l1 l2 → ∀ b ∈ l2, ∃ a ∈ l1, R a b := by
  intro l1 l2 h
  induction h with
  | nil => intro b hb; simp at hb
  | cons hr _ ih =>
    intro b hb
    rcases List.mem_cons.mp hb with rfl | hb'
    · exact ⟨_, List.mem_cons_self _ _, hr⟩
    · rcases ih b hb' with ⟨a, ha, har⟩
      exact ⟨a, List.mem_cons_of_mem _ ha, har⟩

theorem forall₂_countP {R : α → β → Prop} (p : β → Bool) (q : α → Bool)
    (hpq : ∀ a b, R a b → p b = q a) :
    ∀ {l1 : List α} {l2 : List β}, List.Forall₂ R l1 l2 →
      l2.countP p = l1.countP q := by
  intro l1 l2 h
  induction h with
  | nil => rfl
  | cons hr _ ih =>
    rw [List.countP_cons, List.countP_cons, ih, hpq _ _ hr]

theorem countP_eq_one_of_unique {l : List α} (hnd : l.Nodup) (p : α → Bool)
    {a : α} (ha : a ∈ l) (huniq : ∀ x ∈ l, p x = true ↔ x = a) :
    l.countP p = 1 := by
  induction l with
  | nil => simp at ha
  | cons b bs ih =>
    rcases List.nodup_cons.mp hnd with ⟨hb, hbs⟩
    rcases List.mem_cons.mp ha with rfl | ha'
    · rw [List.countP_cons, List.countP_eq_zero.mpr, (huniq a (List.mem_cons_self _ _)).mpr rfl]
      · simp
      · intro x hx hpx
        exact absurd ((huniq x (List.mem_cons_of_mem _ hx)).mp hpx ▸ hx) hb
    · rw [List.countP_cons, ih hbs ha' fun x hx => huniq x (List.mem_cons_of_mem _ hx)]
      have hpb : p b = false := by
        rcases hpbt : p b with _ | _
        · rfl
        · exact absurd ((huniq b (List.mem_cons_self _ _)).mp hpbt ▸ ha') hb
      simp [hpb]

/-- C4 counterexample: the thread builder is not total — on an input
whose reply graph contains a cycle reachable from a root (possible with
a duplicated comment id), `_getAllRepliesTo`'s recursion never finishes:
no amount of fuel produces a result, which embeds the source's unbounded
recursion (a stack-overflow crash, i.e. a throw) on this input. -/
theorem C4_cycle_divergence_cex : buildDiverges cycComments := by
  have key : ∀ f, getAllRepliesTo f cycB cycComments = none ∧
      getAllRepliesTo f cycA2 cycComments = none := by
    intro f
    induction f with
    | zero => exact ⟨rfl, rfl⟩
    | succ f ih =>
      have hfB : cycComments.filter (fun c => c.inReplyTo = some cycB.id) = [cycA2] := by
        decide
      have hfA2 : cycComments.filter (fun c => c.inReplyTo = some cycA2.id) = [cycB] := by
        decide
      constructor
      · show getAllRepliesTo (f + 1) cycB cycComments = none
        simp only [getAllRepliesTo, hfB, getAllRepliesToList, ih.2]
      · show getAllRepliesTo (f + 1) cycA2 cycComments = none
        simp only [getAllRepliesTo, hfA2, getAllRepliesToList, ih.1]
  have keyA : ∀ f, getAllRepliesTo f cycA cycComments = none := by
    intro f
    cases f with
    | zero => rfl
    | succ f =>
      have hfA : cycComments.filter (fun c => c.inReplyTo = some cycA.id) = [cycB] := by
        decide
      show getAllRepliesTo (f + 1) cycA cycComments = none
      simp only [getAllRepliesTo, hfA, getAllRepliesToList, (key f).1]
  have keyR : ∀ f, getAllRepliesTo f cycRoot cycComments = none := by
    intro f
    cases f with
    | zero => rfl
    | succ f =>
      have hfR : cycComments.filter (fun c => c.inReplyTo = some cycRoot.id) = [cycA] := by
        decide
      show getAllRepliesTo (f + 1) cycRoot cycComments = none
      simp only [getAllRepliesTo, hfR, getAllRepliesToList, keyA f]
  intro fuel
  have hroots : cycComments.filter (fun c => c.inReplyTo = none) = [cycRoot] := by decide
  simp only [buildThreadsFromCommentsFuel, hroots, buildRootThreads, keyR fuel]
  rfl

/-- C4 (amended): on every input whose comment ids are pairwise distinct
(the data model's stated invariant), the thread builder is total: the
recursion finishes within `|input| + 1` nested calls and produces a
thread list, throwing nothing; malformed graphs (orphaned replies,
reply cycles among non-roots) only yield fewer visible threads. -/
theorem C4_total_on_unique_ids (comments : List GerritCommentBase)
    (hnd : (comments.map GerritCommentBase.id).Nodup) :
    (buildThreadsFromComments comments).isSome := by
  have hroots : ∀ r ∈ comments.filter (fun c => c.inReplyTo = none),
      r ∈ comments ∧ r.inReplyTo = none := by
    intro r hr
    rcases List.mem_filter.mp hr with ⟨hrall, hrnone⟩
    exact ⟨hrall, of_decide_eq_true hrnone⟩
  have hsome := buildRootThreads_isSome hnd (Nat.le_succ _) hroots
  rcases Option.isSome_iff_exists.mp hsome with ⟨ts, hts⟩
  simp only [buildThreadsFromComments, buildThreadsFromCommentsFuel, hts]
  simp

/-- C4 witness: the amended theorem applied to a small unique-id input. -/
theorem C4_total_on_unique_ids_witness :
    (([⟨"1", none, 1, none, none, none⟩, ⟨"2", some "1", 2, none, none, none⟩,
       ⟨"3", some "2", 3, none, none, none⟩] :
        List GerritCommentBase).map GerritCommentBase.id).Nodup ∧
    (buildThreadsFromComments
      [⟨"1", none, 1, none, none, none⟩, ⟨"2", some "1", 2, none, none, none⟩,
       ⟨"3", some "2", 3, none, none, none⟩]).isSome :=
  ⟨by decide, C4_total_on_unique_ids _ (by decide)⟩

theorem gar_keys_nodup {all : List GerritCommentBase} {fuel : Nat}
    {q : GerritCommentBase} {t : List GerritCommentBase}
    (h : getAllRepliesTo fuel q all = some t) :
    (t.map GerritCommentBase.id).Nodup := by
  cases fuel with
  | zero => simp [getAllRepliesTo] at h
  | succ fuel =>
    simp only [getAllRepliesTo] at h
    cases hrec : getAllRepliesToList (fun r => getAllRepliesTo fuel r all)
        (all.filter fun c => c.inReplyTo = some q.id) with
    | none => rw [hrec] at h; exact absurd h (by simp)
    | some recs =>
      rw [hrec] at h
      obtain rfl := Option.some.inj h
      exact uniqueComplex_keys_nodup _ _

theorem forall₂_and_left {R : α → β → Prop} {P : α → Prop} :
    ∀ {l1 : List α} {l2 : List β}, List.Forall₂ R l1 l2 → (∀ a ∈ l1, P a) →
      List.Forall₂ (fun a b => R a b ∧ P a) l1 l2 := by
  intro l1 l2 h
  induction h with
  | nil => intro _; exact List.Forall₂.nil
  | cons hr _ ih =>
    intro hp
    exact List.Forall₂.cons ⟨hr, hp _ (List.mem_cons_self _ _)⟩
      (ih fun a ha => hp a (List.mem_cons_of_mem _ ha))

theorem reaches_root_unique {all : List GerritCommentBase}
    (hnd : (all.map GerritCommentBase.id).Nodup) {r2 : GerritCommentBase}
    (hr2 : r2.inReplyTo = none) :
    ∀ {c r1 : GerritCommentBase}, Reaches all c r1 → r1.inReplyTo = none →
      Reaches all c r2 → r1 = r2 := by
  intro c r1 h1
  induction h1 with
  | refl d _ =>
    intro hroot h2
    cases h2 with
    | refl _ _ => rfl
    | step _ p _ _ hrep _ =>
      rw [hroot] at hrep
      exact absurd hrep (by simp)
  | step d p q _ hrep hpr ih =>
    intro hroot h2
    cases h2 with
    | refl _ _ =>
      rw [hr2] at hrep
      exact absurd hrep (by simp)
    | step _ p2 _ _ hrep2 hp2r =>
      have hid : p2.id = p.id := by
        rw [hrep] at hrep2
        exact (Option.some.inj hrep2).symm
      have hp2p : p2 = p :=
        comment_id_inj hnd hp2r.mem_left hpr.mem_left hid
      subst hp2p
      exact ih hroot hp2r

/-- C2 counterexample: on input `[r, a→b, b→a]` (ids pairwise distinct, no
`inReplyTo` naming an id absent from the input — so no comment's reply
chain is "broken" in the claim's sense), the builder produces the single
thread `[r]` and comment `a` appears in no thread: `a` is omitted even
though its chain is not broken, because its upward chain is a cycle that
never reaches a root. -/
theorem C2_unreachable_cycle_cex :
    buildThreadsFromComments
      [⟨"r", none, 0, none, none, none⟩, ⟨"a", some "b", 1, none, none, none⟩,
       ⟨"b", some "a", 2, none, none, none⟩] =
      some [[⟨"r", none, 0, none, none, none⟩]] ∧
    (∀ c ∈ ([⟨"r", none, 0, none, none, none⟩, ⟨"a", some "b", 1, none, none, none⟩,
        ⟨"b", some "a", 2, none, none, none⟩] : List GerritCommentBase),
      ∀ pid, c.inReplyTo = some pid →
        pid ∈ ([⟨"r", none, 0, none, none, none⟩, ⟨"a", some "b", 1, none, none, none⟩,
          ⟨"b", some "a", 2, none, none, none⟩] : List GerritCommentBase).map
            GerritCommentBase.id) ∧
    ∀ t ∈ [[(⟨"r", none, 0, none, none, none⟩ : GerritCommentBase)]],
      (⟨"a", some "b", 1, none, none, none⟩ : GerritCommentBase) ∉ t := by
  refine ⟨by decide, by decide, by decide⟩

/-- C2 (amended): on inputs with pairwise-distinct comment ids (the data
model's stated invariant), the built threads partition the comments
whose upward `inReplyTo` chain reaches a root: such a comment — in
particular every root, which reaches itself — lies in exactly one
thread, the same thread as its root; a comment whose chain does not
reach a root (a referenced id absent from the input, or a reply cycle)
appears in no thread. -/
theorem C2_thread_partition (all : List GerritCommentBase)
    (hnd : (all.map GerritCommentBase.id).Nodup)
    (ts : List (List GerritCommentBase))
    (h : buildThreadsFromComments all = some ts) :
    ∀ c ∈ all,
      ((∃ r, ReachesRoot all c r) →
        (ts.countP fun t => decide (c ∈ t)) = 1 ∧
        ∀ r, ReachesRoot all c r → ∀ t ∈ ts, c ∈ t → r ∈ t) ∧
      ((¬ ∃ r, ReachesRoot all c r) → ∀ t ∈ ts, c ∉ t) := by
  classical
  intro c hc
  simp only [buildThreadsFromComments, buildThreadsFromCommentsFuel] at h
  rcases Option.map_eq_some'.mp h with ⟨ts0, hts0, rfl⟩
  have hf2 := buildRootThreads_some_iff.mp hts0
  have hrootsmem : ∀ r ∈ all.filter (fun c' => c'.inReplyTo = none),
      r ∈ all ∧ r.inReplyTo = none := by
    intro r hr
    rcases List.mem_filter.mp hr with ⟨hrall, hrnone⟩
    exact ⟨hrall, of_decide_eq_true hrnone⟩
  have hf2' := forall₂_and_left hf2 hrootsmem
  have hchar : ∀ {r t0}, getAllRepliesTo (all.length + 1) r all = some t0 → r ∈ all →
      ∀ x, x ∈ t0 ↔ Reaches all x r := by
    intro r t0 hg hr x
    exact ⟨fun hx => gar_mem_reaches hg hr x hx, fun hx => gar_reaches_mem hnd hx hg hr⟩
  -- membership in a produced thread characterized by reachability
  have hmem : ∀ t ∈ List.map (sortByDateIncreasing GerritCommentBase.updated) ts0,
      ∀ x, x ∈ t → ∃ r, (r ∈ all ∧ r.inReplyTo = none) ∧ Reaches all x r ∧
        ∀ y, Reaches all y r → y ∈ t := by
    intro t ht x hx
    rcases List.mem_map.mp ht with ⟨t0, ht0, rfl⟩
    rcases forall₂_mem_right hf2' t0 ht0 with ⟨r, hrroots, hg, hrall, hrnone⟩
    have hperm := sortBy_perm (fun a b => a.updated ≤ b.updated) t0
    have hx0 : x ∈ t0 := hperm.mem_iff.mp hx
    refine ⟨r, ⟨hrall, hrnone⟩, (hchar hg hrall x).mp hx0, ?_⟩
    intro y hy
    exact hperm.mem_iff.mpr ((hchar hg hrall y).mpr hy)
  constructor
  · rintro ⟨r, hrreach, hrroot⟩
    have hrall : r ∈ all := hrreach.mem_right
    constructor
    · -- exactly one thread contains c
      rw [List.countP_map]
      have hcount := forall₂_countP
        ((fun t => decide (c ∈ t)) ∘ sortByDateIncreasing GerritCommentBase.updated)
        (fun r' => decide (Reaches all c r'))
        (by
          rintro r' t0 ⟨hg, hr'all, hr'none⟩
          simp only [Function.comp]
          rw [decide_eq_decide]
          exact Iff.trans
            ((sortBy_perm (fun a b => a.updated ≤ b.updated) t0).mem_iff)
            (hchar hg hr'all c))
        hf2'
      rw [hcount]
      have hallnd : all.Nodup := List.Nodup.of_map _ hnd
      refine countP_eq_one_of_unique (List.Nodup.filter _ hallnd) _
        (List.mem_filter.mpr ⟨hrall, by simp [hrroot]⟩) ?_
      intro x hx
      rcases hrootsmem x hx with ⟨hxall, hxnone⟩
      constructor
      · intro hdec
        exact reaches_root_unique hnd hrroot (of_decide_eq_true hdec) hxnone hrreach
      · rintro rfl
        exact decide_eq_true hrreach
    · -- the root lies in the same thread
      intro r' hr' t ht hct
      rcases hmem t ht c hct with ⟨rt, ⟨hrtall, hrtnone⟩, hcrt, hclosed⟩
      have : r' = rt := reaches_root_unique hnd hrtnone hr'.1 hr'.2 hcrt
      subst this
      exact hclosed r' (Reaches.refl r' hrtall)
  · intro hnone t ht hct
    rcases hmem t ht c hct with ⟨rt, ⟨hrtall, hrtnone⟩, hcrt, _⟩
    exact hnone ⟨rt, hcrt, hrtnone⟩

/-- C2 witness: the amended theorem applied to the two-root example. -/
theorem C2_thread_partition_witness :
    (([⟨"1", none, 1, none, none, none⟩, ⟨"2", some "1", 2, none, none, none⟩] :
        List GerritCommentBase).map GerritCommentBase.id).Nodup ∧
    ((buildThreadsFromComments
        [⟨"1", none, 1, none, none, none⟩, ⟨"2", some "1", 2, none, none, none⟩] =
      some [[⟨"1", none, 1, none, none, none⟩, ⟨"2", some "1", 2, none, none, none⟩]]) ∧
    ∀ c ∈ ([⟨"1", none, 1, none, none, none⟩, ⟨"2", some "1", 2, none, none, none⟩] :
        List GerritCommentBase),
      ((∃ r, ReachesRoot
          [⟨"1", none, 1, none, none, none⟩, ⟨"2", some "1", 2, none, none, none⟩] c r) →
        (([[⟨"1", none, 1, none, none, none⟩, ⟨"2", some "1", 2, none, none, none⟩]] :
            List (List GerritCommentBase)).countP fun t => decide (c ∈ t)) = 1 ∧
        ∀ r, ReachesRoot
            [⟨"1", none, 1, none, none, none⟩, ⟨"2", some "1", 2, none, none, none⟩] c r →
          ∀ t ∈ ([[⟨"1", none, 1, none, none, none⟩,
              ⟨"2", some "1", 2, none, none, none⟩]] : List (List GerritCommentBase)),
            c ∈ t → r ∈ t) ∧
      ((¬ ∃ r, ReachesRoot
          [⟨"1", none, 1, none, none, none⟩, ⟨"2", some "1", 2, none, none, none⟩] c r) →
        ∀ t ∈ ([[⟨"1", none, 1, none, none, none⟩,
            ⟨"2", some "1", 2, none, none, none⟩]] : List (List GerritCommentBase)),
          c ∉ t)) := by
  refine ⟨by decide, by decide, ?_⟩
  exact C2_thread_partition _ (by decide) _ (by decide)

/-- C3: every thread the builder produces is sorted by `updated`
ascending and contains pairwise-distinct comment ids, even when the
input has duplicate ids or a comment is reachable along several reply
paths (`uniqueComplex` deduplicates each expansion before sorting); the
builder is a pure function of its input list, so re-running it on the
same input yields the identical thread list. -/
theorem C3_threads_sorted_unique_ids (input : List GerritCommentBase)
    (ts : List (List GerritCommentBase))
    (h : buildThreadsFromComments input = some ts) :
    (∀ t ∈ ts, List.Pairwise (fun a b => a.updated ≤ b.updated) t ∧
      (t.map GerritCommentBase.id).Nodup) ∧
    buildThreadsFromComments input = buildThreadsFromComments input := by
  refine ⟨?_, rfl⟩
  intro t ht
  simp only [buildThreadsFromComments, buildThreadsFromCommentsFuel] at h
  rcases Option.map_eq_some'.mp h with ⟨ts0, hts0, rfl⟩
  rcases List.mem_map.mp ht with ⟨t0, ht0, rfl⟩
  have hf2 := buildRootThreads_some_iff.mp hts0
  rcases forall₂_mem_right hf2 t0 ht0 with ⟨r, _, hg⟩
  constructor
  · have hsorted := sortBy_sorted (fun a b => (decide (a.updated ≤ b.updated)))
      (fun a b => by
        rcases Nat.le_total a.updated b.updated with h' | h'
        · exact Or.inl (decide_eq_true h')
        · exact Or.inr (decide_eq_true h'))
      (fun a b c hab hbc =>
        decide_eq_true (Nat.le_trans (of_decide_eq_true hab) (of_decide_eq_true hbc)))
      t0
    exact hsorted.imp fun hab => of_decide_eq_true hab
  · have hperm := (sortBy_perm (fun a b => a.updated ≤ b.updated) t0).map
      GerritCommentBase.id
    exact hperm.nodup_iff.mpr (gar_keys_nodup hg)

/-- C3 witness: the theorem applied to the three-comment chain, whose
build evaluates to a single sorted thread. -/
theorem C3_threads_sorted_unique_ids_witness :
    buildThreadsFromComments
      [⟨"1", none, 1, none, none, none⟩, ⟨"2", some "1", 2, none, none, none⟩,
       ⟨"3", some "2", 3, none, none, none⟩] =
      some [[⟨"1", none, 1, none, none, none⟩, ⟨"2", some "1", 2, none, none, none⟩,
             ⟨"3", some "2", 3, none, none, none⟩]] ∧
    ((∀ t ∈ [[(⟨"1", none, 1, none, none, none⟩ : GerritCommentBase),
        ⟨"2", some "1", 2, none, none, none⟩, ⟨"3", some "2", 3, none, none, none⟩]],
      List.Pairwise (fun a b => a.updated ≤ b.updated) t ∧
        (t.map GerritCommentBase.id).Nodup) ∧
    buildThreadsFromComments
        [⟨"1", none, 1, none, none, none⟩, ⟨"2", some "1", 2, none, none, none⟩,
         ⟨"3", some "2", 3, none, none, none⟩] =
      buildThreadsFromComments
        [⟨"1", none, 1, none, none, none⟩, ⟨"2", some "1", 2, none, none, none⟩,
         ⟨"3", some "2", 3, none, none, none⟩]) :=
  ⟨by decide, C3_threads_sorted_unique_ids _ _ (by decide)⟩

/-- C1 (code evaluation at the failing input): in the source filter
`(c) => c.side ?? GerritCommentSide.RIGHT === fileMeta.side`, `===`
binds tighter than `??`, so a comment with an explicit `LEFT` side is a
truthy value and survives the side filter of a `RIGHT`-side document —
and then appears in a built thread, contradicting the claim that
other-side comments appear in no thread. -/
theorem C1_side_filter_keeps_other_side :
    List.filter (sideFilterPred GerritCommentSide.RIGHT)
      [⟨"L1", none, 1, some GerritCommentSide.LEFT, some 3, none⟩] =
      [⟨"L1", none, 1, some GerritCommentSide.LEFT, some 3, none⟩] ∧
    buildThreadsFromComments
      (List.filter (sideFilterPred GerritCommentSide.RIGHT)
        [⟨"L1", none, 1, some GerritCommentSide.LEFT, some 3, none⟩]) =
      some [[⟨"L1", none, 1, some GerritCommentSide.LEFT, some 3, none⟩]] :=
  ⟨by decide, by decide⟩

/-- C9: if either remote fetch rejects, `loadComments` rethrows before
any map mutation: the post-call registry state (`threadMap` and
`threadLineCount` included) is exactly the pre-call state. -/
theorem C9_load_comments_atomic_on_failure (meta : FileMeta)
    (commentsFetch draftsFetch : Except Unit (String → Option (List GerritCommentBase)))
    (s : DocumentCommentManagerState)
    (h : commentsFetch = .error () ∨ draftsFetch = .error ()) :
    loadComments (some meta) commentsFetch draftsFetch s = (s, false) := by
  rcases h with rfl | rfl
  · rfl
  · cases commentsFetch with
    | error e => rfl
    | ok f => rfl

/-- C9 witness: a failing comments fetch against the fresh registry. -/
theorem C9_load_comments_atomic_on_failure_witness :
    loadComments (some ⟨"f.ts", "chg", "rev", GerritCommentSide.RIGHT⟩) (.error ())
      (.ok fun _ => none) initialManagerState = (initialManagerState, false) :=
  C9_load_comments_atomic_on_failure _ _ _ _ (Or.inl rfl)

/-- C8 (code evaluation at the failing input): on a directory with no
registry for the file, `getFileManagersForUri` constructs a fresh
manager and stores it in `_commentManagers`, but never pushes it into
`_commentManagersByFilePath`; the call returns `[]`, and a second call
for the same file identity again returns `[]` — neither the caller nor
subsequent lookups obtain the created registry. -/
theorem C8_directory_lookup_eval :
    (getFileManagersForUri (some ⟨"f.ts", "chg", "rev", GerritCommentSide.RIGHT⟩)
        emptyDirectory).1 = [] ∧
    ((getFileManagersForUri (some ⟨"f.ts", "chg", "rev", GerritCommentSide.RIGHT⟩)
        emptyDirectory).2.commentManagers
      (fileMetaToKey ⟨"f.ts", "chg", "rev", GerritCommentSide.RIGHT⟩) = some 0) ∧
    (getFileManagersForUri (some ⟨"f.ts", "chg", "rev", GerritCommentSide.RIGHT⟩)
        (getFileManagersForUri (some ⟨"f.ts", "chg", "rev", GerritCommentSide.RIGHT⟩)
          emptyDirectory).2).1 = [] := by
  refine ⟨by decide, by decide, by decide⟩

/-! ## Registry state: the two loops of `loadComments` -/

theorem recordThreadLine_count_le (st : DocumentCommentManagerState)
    (th : List GerritCommentBase) (l : Int) :
    getLineThreadCount st l ≤ getLineThreadCount (recordThreadLine st th) l := by
  cases hh : th.head? with
  | none => simp [recordThreadLine, hh]
  | some c0 =>
    simp only [recordThreadLine, hh, getLineThreadCount]
    by_cases hl : l = anchorLineOf c0
    · subst hl
      simp
    · rw [if_neg hl]

theorem recordThreadLines_count_le (threads : List (List GerritCommentBase)) :
    ∀ (st : DocumentCommentManagerState) (l : Int),
      getLineThreadCount st l ≤ getLineThreadCount (recordThreadLines threads st) l := by
  induction threads with
  | nil => intro st l; simp [recordThreadLines]
  | cons th rest ih =>
    intro st l
    exact (recordThreadLine_count_le st th l).trans (ih (recordThreadLine st th) l)

theorem recordThreadLine_count_bump (st : DocumentCommentManagerState)
    {th : List GerritCommentBase} {c0 : GerritCommentBase} (hh : th.head? = some c0)
    {l : Int} (hl : anchorLineOf c0 = l) :
    getLineThreadCount st l + 1 ≤ getLineThreadCount (recordThreadLine st th) l := by
  subst hl
  simp [recordThreadLine, hh, getLineThreadCount]

theorem recordThreadLines_count_bump {t : List GerritCommentBase}
    {c0 : GerritCommentBase} (hc0 : t.head? = some c0) {l : Int}
    (hl : anchorLineOf c0 = l) :
    ∀ {threads : List (List GerritCommentBase)}, t ∈ threads →
      ∀ (st : DocumentCommentManagerState),
        getLineThreadCount st l + 1 ≤ getLineThreadCount (recordThreadLines threads st) l := by
  intro threads
  induction threads with
  | nil => intro h; simp at h
  | cons th rest ih =>
    intro hmem st
    rcases List.mem_cons.mp hmem with rfl | hmem'
    · calc getLineThreadCount st l + 1
          ≤ getLineThreadCount (recordThreadLine st t) l :=
            recordThreadLine_count_bump st hc0 hl
        _ ≤ getLineThreadCount (recordThreadLines rest (recordThreadLine st t)) l :=
            recordThreadLines_count_le rest _ l
    · calc getLineThreadCount st l + 1
          ≤ getLineThreadCount (recordThreadLine st th) l + 1 :=
            Nat.add_le_add_right (recordThreadLine_count_le st th l) 1
        _ ≤ getLineThreadCount (recordThreadLines rest (recordThreadLine st th)) l :=
            ih hmem' _

theorem recordThreadLine_threadMap (st : DocumentCommentManagerState)
    (th : List GerritCommentBase) : (recordThreadLine st th).threadMap = st.threadMap := by
  cases hh : th.head? with
  | none => simp [recordThreadLine, hh]
  | some c0 => simp [recordThreadLine, hh]

theorem recordThreadLines_threadMap (threads : List (List GerritCommentBase)) :
    ∀ (st : DocumentCommentManagerState),
      (recordThreadLines threads st).threadMap = st.threadMap := by
  induction threads with
  | nil => intro st; rfl
  | cons th rest ih =>
    intro st
    show (recordThreadLines rest (recordThreadLine st th)).threadMap = _
    rw [ih, recordThreadLine_threadMap]

theorem createCommentThread_preserves (st : DocumentCommentManagerState)
    (th : List GerritCommentBase) :
    ((createCommentThread st th).2).threadLineCount = st.threadLineCount ∧
      ((createCommentThread st th).2).threadMap = st.threadMap := by
  cases hh : th.head? with
  | none => simp [createCommentThread, hh]
  | some c0 =>
    cases hr : getCommentRange c0 with
    | none => simp [createCommentThread, hh, hr]
    | some r => simp [createCommentThread, hh, hr]

theorem createCommentThread_first (st : DocumentCommentManagerState)
    (th : List GerritCommentBase) :
    (createCommentThread st th).1 = none ↔ threadAnchored th = false := by
  cases hh : th.head? with
  | none => simp [createCommentThread, threadAnchored, hh]
  | some c0 =>
    cases hr : getCommentRange c0 with
    | none => simp [createCommentThread, threadAnchored, hh, hr]
    | some r => simp [createCommentThread, threadAnchored, hh, hr]

theorem registerThreadComments_threadMap (tid : Nat)
    (th : List GerritCommentBase) :
    ∀ (st : DocumentCommentManagerState) (k : String),
      (registerThreadComments tid st th).threadMap k =
        if th.any (fun c => c.id = k) then some tid else st.threadMap k := by
  induction th with
  | nil => intro st k; simp [registerThreadComments]
  | cons c rest ih =>
    intro st k
    show (registerThreadComments tid
        { st with threadMap := fun k' => if k' = c.id then some tid else st.threadMap k' }
        rest).threadMap k = _
    rw [ih]
    simp only [List.any_cons]
    by_cases hk : k = c.id
    · subst hk
      simp
    · by_cases hany : rest.any (fun c' => c'.id = k)
      · simp [hany, hk]
      · simp [hany, hk, Ne.symm hk]

theorem registerThreadComments_threadLineCount (tid : Nat)
    (th : List GerritCommentBase) :
    ∀ (st : DocumentCommentManagerState),
      (registerThreadComments tid st th).threadLineCount = st.threadLineCount := by
  induction th with
  | nil => intro st; rfl
  | cons c rest ih =>
    intro st
    show (registerThreadComments tid _ rest).threadLineCount = _
    rw [ih]

theorem registerThread_threadLineCount (st : DocumentCommentManagerState)
    (th : List GerritCommentBase) :
    (registerThread st th).threadLineCount = st.threadLineCount := by
  unfold registerThread
  cases hct : createCommentThread st th with
  | mk first st' =>
    cases first with
    | none =>
      have := (createCommentThread_preserves st th).1
      rw [hct] at this
      exact this
    | some tid =>
      rw [registerThreadComments_threadLineCount]
      have := (createCommentThread_preserves st th).1
      rw [hct] at this
      exact this

theorem registerThreads_threadLineCount (threads : List (List GerritCommentBase)) :
    ∀ (st : DocumentCommentManagerState),
      (registerThreads threads st).threadLineCount = st.threadLineCount := by
  induction threads with
  | nil => intro st; rfl
  | cons th rest ih =>
    intro st
    show (registerThreads rest (registerThread st th)).threadLineCount = _
    rw [ih, registerThread_threadLineCount]

theorem registerThread_threadMap_none_iff (st : DocumentCommentManagerState)
    (th : List GerritCommentBase) (k : String) :
    (registerThread st th).threadMap k = none ↔
      st.threadMap k = none ∧
        ¬(threadAnchored th = true ∧ th.any (fun c => c.id = k) = true) := by
  unfold registerThread
  cases hh : th.head? with
  | none =>
    simp [createCommentThread, hh, threadAnchored]
  | some c0 =>
    cases hr : getCommentRange c0 with
    | none =>
      simp [createCommentThread, hh, hr, threadAnchored]
    | some r =>
      simp only [createCommentThread, hh, hr, registerThreadComments_threadMap,
        threadAnchored]
      by_cases hany : th.any (fun c => c.id = k)
      · simp [hany]
      · simp [hany]

theorem registerThreads_threadMap_none_iff (threads : List (List GerritCommentBase)) :
    ∀ (st : DocumentCommentManagerState) (k : String),
      (registerThreads threads st).threadMap k = none ↔
        st.threadMap k = none ∧
          ∀ th ∈ threads,
            ¬(threadAnchored th = true ∧ th.any (fun c => c.id = k) = true) := by
  induction threads with
  | nil => intro st k; simp [registerThreads]
  | cons th rest ih =>
    intro st k
    show (registerThreads rest (registerThread st th)).threadMap k = none ↔ _
    rw [ih, registerThread_threadMap_none_iff]
    constructor
    · rintro ⟨⟨hnone, hth⟩, hrest⟩
      refine ⟨hnone, ?_⟩
      intro th' hmem'
      rcases List.mem_cons.mp hmem' with rfl | hmem''
      · exact hth
      · exact hrest th' hmem''
    · rintro ⟨hnone, hall⟩
      exact ⟨⟨hnone, hall th (List.mem_cons_self _ _)⟩,
        fun th' hmem => hall th' (List.mem_cons_of_mem _ hmem)⟩

theorem built_threads_id_disjoint {all : List GerritCommentBase}
    (hnd : (all.map GerritCommentBase.id).Nodup)
    {ts : List (List GerritCommentBase)}
    (h : buildThreadsFromComments all = some ts) :
    ∀ t1 ∈ ts, ∀ t2 ∈ ts, ∀ c1 ∈ t1, ∀ c2 ∈ t2, c1.id = c2.id → t1 = t2 ∧ c1 = c2 := by
  intro t1 ht1 t2 ht2 c1 hc1 c2 hc2 hid
  simp only [buildThreadsFromComments, buildThreadsFromCommentsFuel] at h
  rcases Option.map_eq_some'.mp h with ⟨ts0, hts0, rfl⟩
  have hf2 := buildRootThreads_some_iff.mp hts0
  have hrootsmem : ∀ r ∈ all.filter (fun c' => c'.inReplyTo = none),
      r ∈ all ∧ r.inReplyTo = none := by
    intro r hr
    rcases List.mem_filter.mp hr with ⟨hrall, hrnone⟩
    exact ⟨hrall, of_decide_eq_true hrnone⟩
  have hf2' := forall₂_and_left hf2 hrootsmem
  rcases List.mem_map.mp ht1 with ⟨t01, ht01, rfl⟩
  rcases List.mem_map.mp ht2 with ⟨t02, ht02, rfl⟩
  rcases forall₂_mem_right hf2' t01 ht01 with ⟨r1, _, hg1, hr1all, hr1none⟩
  rcases forall₂_mem_right hf2' t02 ht02 with ⟨r2, _, hg2, hr2all, hr2none⟩
  have hperm1 := sortBy_perm (fun a b => a.updated ≤ b.updated) t01
  have hperm2 := sortBy_perm (fun a b => a.updated ≤ b.updated) t02
  have hc01 : c1 ∈ t01 := hperm1.mem_iff.mp hc1
  have hc02 : c2 ∈ t02 := hperm2.mem_iff.mp hc2
  have hc1all : c1 ∈ all := gar_some_sub hg1 hr1all c1 hc01
  have hc2all : c2 ∈ all := gar_some_sub hg2 hr2all c2 hc02
  have hceq : c1 = c2 := comment_id_inj hnd hc1all hc2all hid
  subst hceq
  have hreach1 : Reaches all c1 r1 := gar_mem_reaches hg1 hr1all c1 hc01
  have hreach2 : Reaches all c1 r2 := gar_mem_reaches hg2 hr2all c1 hc02
  have hreq : r1 = r2 := reaches_root_unique hnd hr2none hreach1 hr1none hreach2
  subst hreq
  have ht0eq : t01 = t02 := Option.some.inj (hg1.symm.trans hg2)
  subst ht0eq
  exact ⟨rfl, rfl⟩

/-- C10: when `loadComments` (run against a fresh registry, with both
fetches succeeding and the side-filtered comments carrying
pairwise-distinct ids) builds a thread whose first (root) comment has no
placeable anchor, the line-count map is still bumped at the sentinel
line `-1` — `getLineThreadCount (-1)` becomes positive — while no live
thread object is created for it (`createCommentThread` yields `null`)
and none of its comment ids is registered in `threadMap`, so
`getThreadByComment` returns `null` for every comment of the thread. -/
theorem C10_unanchored_thread (meta : FileMeta)
    (cBy dBy : String → Option (List GerritCommentBase))
    (built : List (List GerritCommentBase)) (t : List GerritCommentBase)
    (c0 : GerritCommentBase) (s' : DocumentCommentManagerState) (ok : Bool)
    (hnd : ((((cBy meta.filePath).getD [] ++ (dBy meta.filePath).getD []).filter
        (sideFilterPred meta.side)).map GerritCommentBase.id).Nodup)
    (hbuilt : buildThreadsFromComments
        (((cBy meta.filePath).getD [] ++ (dBy meta.filePath).getD []).filter
          (sideFilterPred meta.side)) = some built)
    (ht : t ∈ built.filter fun th => th.length ≠ 0)
    (hc0 : t.head? = some c0)
    (hr : getCommentRange c0 = none)
    (hrun : loadComments (some meta) (.ok cBy) (.ok dBy) initialManagerState = (s', ok)) :
    1 ≤ getLineThreadCount s' (-1) ∧
    (∀ st, (createCommentThread st t).1 = none) ∧
    ∀ c ∈ t, getThreadByComment s' c = none := by
  simp only [loadComments, hbuilt] at hrun
  rw [Prod.mk.injEq] at hrun
  obtain ⟨hs', -⟩ := hrun
  subst hs'
  have hanchor : anchorLineOf c0 = -1 := by simp [anchorLineOf, hr]
  have hunanch : threadAnchored t = false := by simp [threadAnchored, hc0, hr]
  refine ⟨?_, ?_, ?_⟩
  · have hlc := registerThreads_threadLineCount (built.filter fun th => th.length ≠ 0)
      (recordThreadLines (built.filter fun th => th.length ≠ 0) initialManagerState)
    show 1 ≤ getLineThreadCount _ (-1)
    unfold getLineThreadCount
    rw [hlc]
    have := recordThreadLines_count_bump hc0 hanchor ht initialManagerState
    simpa [getLineThreadCount, initialManagerState] using this
  · intro st
    rw [createCommentThread_first]
    exact hunanch
  · intro c hct
    show (registerThreads _ _).threadMap c.id = none
    rw [registerThreads_threadMap_none_iff]
    constructor
    · rw [recordThreadLines_threadMap]
      rfl
    · rintro th hth ⟨hanch, hany⟩
      rcases List.any_eq_true.mp hany with ⟨c', hc', hcid⟩
      have hc'id : c'.id = c.id := of_decide_eq_true hcid
      have htb : th ∈ built := List.mem_of_mem_filter hth
      have htb' : t ∈ built := List.mem_of_mem_filter ht
      obtain ⟨rfl, -⟩ :=
        built_threads_id_disjoint hnd hbuilt th htb t htb' c' hc' c hct hc'id
      rw [hunanch] at hanch
      exact absurd hanch (by simp)

/-- C10 witness: a single fetched root comment with no anchor — the
sentinel count at `-1` becomes `1`, no live thread exists, and the
comment's id resolves to `null`. -/
theorem C10_unanchored_thread_witness :
    1 ≤ getLineThreadCount
        (loadComments (some ⟨"f", "c", "r", GerritCommentSide.RIGHT⟩)
          (.ok fun p => if p = "f" then some [⟨"u", none, 1, none, none, none⟩] else none)
          (.ok fun _ => none) initialManagerState).1 (-1) ∧
    (∀ st, (createCommentThread st [⟨"u", none, 1, none, none, none⟩]).1 = none) ∧
    ∀ c ∈ [(⟨"u", none, 1, none, none, none⟩ : GerritCommentBase)],
      getThreadByComment
        (loadComments (some ⟨"f", "c", "r", GerritCommentSide.RIGHT⟩)
          (.ok fun p => if p = "f" then some [⟨"u", none, 1, none, none, none⟩] else none)
          (.ok fun _ => none) initialManagerState).1 c = none :=
  C10_unanchored_thread ⟨"f", "c", "r", GerritCommentSide.RIGHT⟩
    (fun p => if p = "f" then some [⟨"u", none, 1, none, none, none⟩] else none)
    (fun _ => none)
    [[⟨"u", none, 1, none, none, none⟩]] [⟨"u", none, 1, none, none, none⟩]
    ⟨"u", none, 1, none, none, none⟩ _ _
    (by decide) (by decide) (by decide) (by decide) (by decide) rfl
